import Mathlib

/-!
Verification development for the aretext text-editor core.

This file shallowly embeds, in Lean 4:
  * the text tree (`internal/pkg/text/tree.go`): bulk loading of UTF-8 bytes into
    leaf node groups, bottom-up construction of the inner-node index, cursor
    placement by character position and by line number, streaming cursor reads,
    and single-character deletion;
  * the Unicode line breaker and the wrapped-line iterator
    (`text/segment/line.go`);
  * the word-motion functions of the `locate` package (modelled from the spec,
    since only their tests appear in the provided sources).

Bytes are modelled as `Nat` (the source uses `byte`; all byte values stay below
256), positions and counts as `Nat` (the source uses `uint64`; all arithmetic
involved is non-negative and nowhere near overflow).  Leaf nodes carry their live
bytes as a `List Nat` (the source stores a fixed 63-byte array together with
`numBytes`; the list is the `textBytes[:numBytes]` slice).  Node groups carry
their live nodes as lists for the same reason, and the doubly linked list of leaf
groups is modelled by the global, left-to-right list of leaf groups, with a
group's `next` pointer corresponding to the successor index in that list.
-/

set_option linter.unusedVariables false

namespace Aretext

/-! ## Constants (tree.go lines 193-195) -/

def maxKeysPerNode : Nat := 64
def maxNodesPerGroup : Nat := maxKeysPerNode
def maxBytesPerLeaf : Nat := 63

/-! ## UTF-8 byte lookup tables (tree.go lines 422-451)

`utf8CharWidth b` is the byte count of the character for start bytes and zero
otherwise; `utf8StartByteIndicator b` is 1 for start bytes and 0 otherwise.
The source builds both as 256-entry tables from the bit patterns `0xxxxxxx`,
`110xxxxx`, `1110xxxx`, `11110xxx`; `b >>> k` is `b / 2^k`. -/

def utf8CharWidth (b : Nat) : Nat :=
  if b / 128 = 0 then 1
  else if b / 32 = 6 then 2
  else if b / 16 = 14 then 3
  else if b / 8 = 30 then 4
  else 0

def utf8StartByteIndicator (b : Nat) : Nat :=
  if b / 128 = 0 ∨ b / 32 = 6 ∨ b / 16 = 14 ∨ b / 8 = 30 then 1 else 0

/-! ## Index keys (tree.go lines 205-213) -/

structure IndexKey where
  numChars : Nat
  numNewlines : Nat
deriving DecidableEq, Repr

def addKey (a b : IndexKey) : IndexKey :=
  ⟨a.numChars + b.numChars, a.numNewlines + b.numNewlines⟩

def sumKeys (keys : List IndexKey) : IndexKey :=
  keys.foldl addKey ⟨0, 0⟩

/-! ## Leaf nodes (tree.go lines 357-420)

A leaf node is its list of live text bytes (`textBytes[:numBytes]`). -/

def leafNodeKey (textBytes : List Nat) : IndexKey :=
  textBytes.foldl
    (fun key b =>
      { numChars := key.numChars + utf8StartByteIndicator b,
        numNewlines := key.numNewlines + if b = 10 then 1 else 0 })
    ⟨0, 0⟩

def byteOffsetForPositionLoop : List Nat → Nat → Nat → Nat → Nat
  | [], _, i, _ => i
  | b :: rest, charPos, i, n =>
    if utf8StartByteIndicator b > 0 ∧ n = charPos then i
    else byteOffsetForPositionLoop rest charPos (i + 1) (n + utf8StartByteIndicator b)

/-- `leafNode.byteOffsetForPosition`: byte offset of the `charPos`-th character
(counting start bytes), or the byte length if there are at most `charPos`
characters. -/
def byteOffsetForPosition (textBytes : List Nat) (charPos : Nat) : Nat :=
  byteOffsetForPositionLoop textBytes charPos 0 0

def byteOffsetAfterNewlineLoop : List Nat → Nat → Nat → Nat → Nat
  | [], _, i, _ => i
  | b :: rest, newlinePos, i, n =>
    if b = 10 then
      if n = newlinePos then i + 1
      else byteOffsetAfterNewlineLoop rest newlinePos (i + 1) (n + 1)
    else byteOffsetAfterNewlineLoop rest newlinePos (i + 1) n

/-- `leafNode.byteOffsetAfterNewline`: byte offset just past the
`newlinePos`-th newline byte, or the byte length if there is none. -/
def byteOffsetAfterNewline (textBytes : List Nat) (newlinePos : Nat) : Nat :=
  byteOffsetAfterNewlineLoop textBytes newlinePos 0 0

/-- `leafNode.deleteAtPosition`: returns the new text bytes and the
`(didDelete, wasNewline)` pair.  The source shifts `textBytes` left by
`charWidth` starting at `offset` and decrements `numBytes` by `charWidth`;
on character-aligned in-bounds data (which the tree maintains) this equals
removing the `charWidth` bytes starting at `offset`. -/
def leafDeleteAtPosition (textBytes : List Nat) (charPos : Nat) :
    List Nat × Bool × Bool :=
  let offset := byteOffsetForPosition textBytes charPos
  if offset < textBytes.length then
    let startByte := textBytes.getD offset 0
    let charWidth := utf8CharWidth startByte
    (textBytes.take offset ++ textBytes.drop (offset + charWidth),
      true, startByte = 10)
  else (textBytes, false, false)

/-! ## Bulk loading into leaves (tree.go lines 47-95)

The byte-packing loop of `bulkLoadIntoLeaves`.  The source reads the input
through a 1024-byte buffer; packing is byte-at-a-time and independent of the
chunking, so the embedding processes the byte list directly.  The state holds
the finished leaf groups, the finished nodes of the group under construction,
and the bytes of the node under construction (in the source: the slices of
`leafGroups`, `currentGroup`, `currentNode` already written). -/

structure BulkLoadState where
  doneGroups : List (List (List Nat))
  doneNodes : List (List Nat)
  currentNode : List Nat
deriving Repr

def bulkLoadByte (st : BulkLoadState) (b : Nat) : BulkLoadState :=
  let charWidth := utf8CharWidth b
  let st' :=
    if st.currentNode.length + charWidth ≥ maxBytesPerLeaf then
      -- start a new node, in the current group if it has room (the source
      -- compares currentGroup.numNodes, which counts currentNode, to
      -- maxNodesPerGroup), else in a fresh group linked after it
      if st.doneNodes.length + 1 < maxNodesPerGroup then
        { st with doneNodes := st.doneNodes ++ [st.currentNode], currentNode := [] }
      else
        { doneGroups := st.doneGroups ++ [st.doneNodes ++ [st.currentNode]],
          doneNodes := [], currentNode := [] }
    else st
  { st' with currentNode := st'.currentNode ++ [b] }

/-- The leaf groups produced by `bulkLoadIntoLeaves` for a given byte list
(validation aside; `NewTreeFromReader` performs validation separately below). -/
def bulkLoadLeaves (bytes : List Nat) : List (List (List Nat)) :=
  let st := bytes.foldl bulkLoadByte ⟨[], [], []⟩
  st.doneGroups ++ [st.doneNodes ++ [st.currentNode]]

/-! ## UTF-8 validation (spec-modelled)

The validator (`NewValidator` / `ValidateBytes` / `ValidateEnd`) is code of this
repository that is not among the provided source files; only its callers in
`bulkLoadIntoLeaves` are.  Per the spec it "validates UTF-8 incrementally,
failing with `EncodingError` (including on a truncated trailing sequence)". -/

def isContinuationByte (b : Nat) : Bool := decide (128 ≤ b ∧ b ≤ 191)

/-- Modelled from the spec: the streaming UTF-8 Validator.  Accepts exactly the
byte sequences that are valid UTF-8 (RFC 3629): ASCII bytes, and 2-, 3- and
4-byte sequences with the standard lead/continuation ranges that exclude
overlong forms, surrogates and code points above U+10FFFF.  A truncated
trailing sequence is rejected (the `ValidateEnd` check). -/
def validUTF8 : List Nat → Bool
  | [] => true
  | b :: rest =>
    if b ≤ 0x7F then validUTF8 rest
    else if 0xC2 ≤ b ∧ b ≤ 0xDF then
      match rest with
      | c1 :: r => isContinuationByte c1 && validUTF8 r
      | [] => false
    else if b = 0xE0 then
      match rest with
      | c1 :: c2 :: r =>
        decide (0xA0 ≤ c1 ∧ c1 ≤ 0xBF) && isContinuationByte c2 && validUTF8 r
      | _ => false
    else if (0xE1 ≤ b ∧ b ≤ 0xEC) ∨ (0xEE ≤ b ∧ b ≤ 0xEF) then
      match rest with
      | c1 :: c2 :: r => isContinuationByte c1 && isContinuationByte c2 && validUTF8 r
      | _ => false
    else if b = 0xED then
      match rest with
      | c1 :: c2 :: r =>
        decide (0x80 ≤ c1 ∧ c1 ≤ 0x9F) && isContinuationByte c2 && validUTF8 r
      | _ => false
    else if b = 0xF0 then
      match rest with
      | c1 :: c2 :: c3 :: r =>
        decide (0x90 ≤ c1 ∧ c1 ≤ 0xBF) && isContinuationByte c2 &&
          isContinuationByte c3 && validUTF8 r
      | _ => false
    else if 0xF1 ≤ b ∧ b ≤ 0xF3 then
      match rest with
      | c1 :: c2 :: c3 :: r =>
        isContinuationByte c1 && isContinuationByte c2 &&
          isContinuationByte c3 && validUTF8 r
      | _ => false
    else if b = 0xF4 then
      match rest with
      | c1 :: c2 :: c3 :: r =>
        decide (0x80 ≤ c1 ∧ c1 ≤ 0x8F) && isContinuationByte c2 &&
          isContinuationByte c3 && validUTF8 r
      | _ => false
    else false

/-- Standard UTF-8 encoding of a Unicode scalar value. -/
def utf8EncodeChar (c : Nat) : List Nat :=
  if c < 0x80 then [c]
  else if c < 0x800 then [0xC0 + c / 64, 0x80 + c % 64]
  else if c < 0x10000 then [0xE0 + c / 4096, 0x80 + c / 64 % 64, 0x80 + c % 64]
  else [0xF0 + c / 262144, 0x80 + c / 4096 % 64, 0x80 + c / 64 % 64, 0x80 + c % 64]

def IsUnicodeScalar (c : Nat) : Prop := c < 0x110000 ∧ ¬(0xD800 ≤ c ∧ c ≤ 0xDFFF)

/-- "Valid UTF-8 string": a byte sequence that is the UTF-8 encoding of some
sequence of Unicode scalar values. -/
def IsValidUTF8 (bytes : List Nat) : Prop :=
  ∃ cs : List Nat, (∀ c ∈ cs, IsUnicodeScalar c) ∧
    (cs.map utf8EncodeChar).flatten = bytes

/-! ## Inner nodes and node groups (tree.go lines 197-355)

In the source an `innerNode` holds a child `nodeGroup` (either an
`innerNodeGroup` or a `leafNodeGroup`) plus one `indexKey` per child node.
Here the two cases are the two constructors; a leaf-parent stores the index of
its `leafNodeGroup` in the global, left-to-right list of leaf groups (the
groups also form the `prev`/`next` chain in that order), and an inner-parent
stores its child `innerNode`s directly (the nodes of its `innerNodeGroup`). -/

inductive InnerNode where
  | leafParent (keys : List IndexKey) (groupIdx : Nat)
  | innerParent (keys : List IndexKey) (children : List InnerNode)
deriving Repr

def nodeKeys : InnerNode → List IndexKey
  | .leafParent keys _ => keys
  | .innerParent keys _ => keys

/-- `innerNode.key()`: sum of the node's keys. -/
def innerNodeKey (n : InnerNode) : IndexKey := sumKeys (nodeKeys n)

/-! The whole leaf level lives beside the tree as the list of leaf groups
(`LeafGroups` below); a group is the list of its live nodes, a node its live
bytes. -/

abbrev LeafGroups := List (List (List Nat))

/-- `text.Cursor` (tree.go lines 156-160): a leaf group (as its index into the
global chain; an index past the last group plays the role of a nil group
pointer), a node index in the group, and a byte offset in the node. -/
structure Cursor where
  groupIdx : Nat
  nodeIdx : Nat
  textByteOffset : Nat
deriving DecidableEq, Repr

/-- `innerNode.locatePosition` (tree.go lines 304-314): running prefix sum over
the keys; returns `(nodeIdx, adjustedCharPos)`, clamping to the last key with
the full character total when `charPos` is out of range. -/
def locatePositionLoop : List IndexKey → Nat → Nat → Nat → Nat × Nat
  | [], _, i, c => (i - 1, c)
  | key :: rest, charPos, i, c =>
    if charPos < c + key.numChars then (i, charPos - c)
    else locatePositionLoop rest charPos (i + 1) (c + key.numChars)

def locatePosition (keys : List IndexKey) (charPos : Nat) : Nat × Nat :=
  locatePositionLoop keys charPos 0 0

/-- The newline analogue used by `innerNode.cursorAfterNewline` (tree.go lines
291-302): the source loops over the first `numKeys - 1` keys and falls through
to the last key with the accumulated newline count subtracted. -/
def locateNewlineLoop : List IndexKey → Nat → Nat → Nat → Nat × Nat
  | [], _, i, c => (i - 1, 0)
  | [_], newlinePos, i, c => (i, newlinePos - c)
  | key :: next :: rest, newlinePos, i, c =>
    if newlinePos < c + key.numNewlines then (i, newlinePos - c)
    else locateNewlineLoop (next :: rest) newlinePos (i + 1) (c + key.numNewlines)

def locateNewline (keys : List IndexKey) (newlinePos : Nat) : Nat × Nat :=
  locateNewlineLoop keys newlinePos 0 0

/-- `leafNodeGroup.cursorAtPosition` (tree.go lines 339-346). -/
def leafGroupCursorAtPosition (groups : LeafGroups) (gIdx nodeIdx charPos : Nat) :
    Cursor :=
  { groupIdx := gIdx, nodeIdx := nodeIdx,
    textByteOffset := byteOffsetForPosition ((groups.getD gIdx []).getD nodeIdx []) charPos }

/-- `leafNodeGroup.cursorAfterNewline` (tree.go lines 348-355). -/
def leafGroupCursorAfterNewline (groups : LeafGroups) (gIdx nodeIdx newlinePos : Nat) :
    Cursor :=
  { groupIdx := gIdx, nodeIdx := nodeIdx,
    textByteOffset := byteOffsetAfterNewline ((groups.getD gIdx []).getD nodeIdx []) newlinePos }

/-! Descent (`innerNode.cursorAtPosition` / `cursorAfterNewline` /
`deleteAtPosition`, and the corresponding `nodeGroup` methods that index the
child group with `nodeIdx`).  The child indexing `g.nodes[nodeIdx]` is done by
walking the child list; an out-of-range child index (which cannot happen in
trees the source builds: `locatePosition` stays below `numKeys`) returns a
cursor past the end of the chain, mirroring a read of zero bytes. -/

mutual
def cursorAtPosNode (groups : LeafGroups) : InnerNode → Nat → Cursor
  | .leafParent keys gIdx, charPos =>
    let loc := locatePosition keys charPos
    leafGroupCursorAtPosition groups gIdx loc.1 loc.2
  | .innerParent keys children, charPos =>
    let loc := locatePosition keys charPos
    cursorAtPosChild groups children loc.1 loc.2
def cursorAtPosChild (groups : LeafGroups) : List InnerNode → Nat → Nat → Cursor
  | [], _, _ => ⟨groups.length, 0, 0⟩
  | child :: _, 0, charPos => cursorAtPosNode groups child charPos
  | _ :: rest, nodeIdx + 1, charPos => cursorAtPosChild groups rest nodeIdx charPos
end

mutual
def cursorAfterNewlineNode (groups : LeafGroups) : InnerNode → Nat → Cursor
  | .leafParent keys gIdx, newlinePos =>
    let loc := locateNewline keys newlinePos
    leafGroupCursorAfterNewline groups gIdx loc.1 loc.2
  | .innerParent keys children, newlinePos =>
    let loc := locateNewline keys newlinePos
    cursorAfterNewlineChild groups children loc.1 loc.2
def cursorAfterNewlineChild (groups : LeafGroups) : List InnerNode → Nat → Nat → Cursor
  | [], _, _ => ⟨groups.length, 0, 0⟩
  | child :: _, 0, newlinePos => cursorAfterNewlineNode groups child newlinePos
  | _ :: rest, nodeIdx + 1, newlinePos => cursorAfterNewlineChild groups rest nodeIdx newlinePos
end

/-- Decrement the key at `nodeIdx` after a deletion (`n.keys[nodeIdx].numChars--`
and, for a newline, `numNewlines--`). -/
def decrementKey (keys : List IndexKey) (nodeIdx : Nat) (wasNewline : Bool) :
    List IndexKey :=
  match keys.getD nodeIdx ⟨0, 0⟩ with
  | key =>
    keys.set nodeIdx
      ⟨key.numChars - 1, key.numNewlines - if wasNewline then 1 else 0⟩

mutual
def deleteAtPosNode (groups : LeafGroups) :
    InnerNode → Nat → InnerNode × LeafGroups × Bool × Bool
  | .leafParent keys gIdx, charPos =>
    let loc := locatePosition keys charPos
    let node := (groups.getD gIdx []).getD loc.1 []
    let res := leafDeleteAtPosition node loc.2
    let groups' := groups.set gIdx ((groups.getD gIdx []).set loc.1 res.1)
    let keys' := if res.2.1 then decrementKey keys loc.1 res.2.2 else keys
    (.leafParent keys' gIdx, groups', res.2.1, res.2.2)
  | .innerParent keys children, charPos =>
    let loc := locatePosition keys charPos
    let res := deleteAtPosChild groups children loc.1 loc.2
    let keys' := if res.2.2.1 then decrementKey keys loc.1 res.2.2.2 else keys
    (.innerParent keys' res.1, res.2.1, res.2.2.1, res.2.2.2)
def deleteAtPosChild (groups : LeafGroups) :
    List InnerNode → Nat → Nat → List InnerNode × LeafGroups × Bool × Bool
  | [], _, _ => ([], groups, false, false)
  | child :: rest, 0, charPos =>
    let res := deleteAtPosNode groups child charPos
    (res.1 :: rest, res.2.1, res.2.2.1, res.2.2.2)
  | child :: rest, nodeIdx + 1, charPos =>
    let res := deleteAtPosChild groups rest nodeIdx charPos
    (child :: res.1, res.2.1, res.2.2.1, res.2.2.2)
end

/-! ## Bottom-up tree construction (`buildTreeFromLeaves`, tree.go lines 97-126) -/

/-- One inner node per leaf group, in chain order: child = the group, keys
recalculated from the group's nodes (`recalculateChildKeys`). -/
def leafParentLayer (groups : LeafGroups) : List InnerNode :=
  (List.range groups.length).map
    (fun i => .leafParent ((groups.getD i []).map leafNodeKey) i)

/-- Split a layer of nodes into parent groups of at most `maxNodesPerGroup`
nodes; like the source, there is always at least one (possibly empty) group. -/
def chunkGroups (nodes : List InnerNode) : List (List InnerNode) :=
  if nodes.length ≤ maxNodesPerGroup then [nodes]
  else nodes.take maxNodesPerGroup :: chunkGroups (nodes.drop maxNodesPerGroup)
termination_by nodes.length
decreasing_by simp [maxNodesPerGroup, maxKeysPerNode]; omega

theorem chunkGroups_length_lt (nodes : List InnerNode)
    (h : ¬(chunkGroups nodes).length = 1) :
    ((chunkGroups nodes).map
        (fun g => InnerNode.innerParent (g.map innerNodeKey) g)).length
      < nodes.length := by
  rw [List.length_map]
  induction nodes using chunkGroups.induct with
  | case1 nodes hle => rw [chunkGroups, if_pos hle] at h ⊢; simp at h
  | case2 nodes hle ih =>
    rw [chunkGroups, if_neg hle] at h ⊢
    simp only [List.length_cons]
    by_cases h2 : (chunkGroups (nodes.drop maxNodesPerGroup)).length = 1
    · rw [h2]
      simp [maxNodesPerGroup, maxKeysPerNode] at hle ⊢
      omega
    · have := ih h2
      have h3 : (nodes.drop maxNodesPerGroup).length < nodes.length := by
        simp [maxNodesPerGroup, maxKeysPerNode] at hle ⊢; omega
      omega

/-- The `for` loop of `buildTreeFromLeaves`: repeatedly group the current layer
of nodes into parent groups; with a single parent group, that group's nodes
become the root's children (`root.recalculateChildKeys` computes one key per
child node, each key being the child's `key()`). -/
def buildUp (layer : List InnerNode) : InnerNode :=
  let pgroups := chunkGroups layer
  if h : pgroups.length = 1 then
    .innerParent ((pgroups.headD []).map innerNodeKey) (pgroups.headD [])
  else
    buildUp (pgroups.map (fun g => .innerParent (g.map innerNodeKey) g))
termination_by layer.length
decreasing_by exact chunkGroups_length_lt layer h

/-- `text.Tree`: the root inner node, together with the global chain of leaf
node groups it indexes into. -/
structure Tree where
  root : InnerNode
  groups : LeafGroups
deriving Repr

/-- The tree built by `NewTreeFromReader` once validation has passed. -/
def buildTree (bytes : List Nat) : Tree :=
  ⟨buildUp (leafParentLayer (bulkLoadLeaves bytes)), bulkLoadLeaves bytes⟩

/-- `NewTreeFromString` / `NewTreeFromReader`: validate, then bulk-load leaves
and build the tree bottom-up; `none` models the `(nil, err)` return. -/
def NewTreeFromString (bytes : List Nat) : Option Tree :=
  if validUTF8 bytes then some (buildTree bytes) else none

/-- `Tree.DeleteAtPosition`. -/
def Tree.deleteAtPosition (t : Tree) (charPos : Nat) : Tree :=
  let res := deleteAtPosNode t.groups t.root charPos
  ⟨res.1, res.2.1⟩

/-- `Tree.CursorAtPosition`. -/
def Tree.cursorAtPosition (t : Tree) (charPos : Nat) : Cursor :=
  cursorAtPosNode t.groups t.root charPos

/-- `Tree.CursorAtLine` (tree.go lines 144-151). -/
def Tree.cursorAtLine (t : Tree) (lineNum : Nat) : Cursor :=
  if lineNum = 0 then cursorAtPosNode t.groups t.root 0
  else cursorAfterNewlineNode t.groups t.root (lineNum - 1)

/-! ## Cursor reads (`Cursor.Read`, tree.go lines 162-191)

`readLoop groups blen acc c` models the read loop into a buffer of length
`blen`, with `acc` the bytes written so far (`i = acc.length` in the source)
and `c` the cursor state.  It returns the bytes written, the error flag
(`true` = `io.EOF`, `false` = `nil`), and the final cursor.  The source
compares `i == len(b)`, `textByteOffset == numBytes` and
`nodeIdx == numNodes` with `==`; the loop keeps `i ≤ len(b)`,
`textByteOffset ≤ numBytes` and `nodeIdx < numNodes`, so `≥` comparisons are
equivalent there and keep this function total on arbitrary cursors. -/

def readLoop (groups : LeafGroups) (blen : Nat) (acc : List Nat) (c : Cursor) :
    List Nat × Bool × Cursor :=
  if blen ≤ acc.length then (acc, false, c)
  else if hg : groups.length ≤ c.groupIdx then (acc, true, c)
  else
    if hoff : c.textByteOffset
        + min (blen - acc.length)
            (((groups.getD c.groupIdx []).getD c.nodeIdx []).length - c.textByteOffset)
        < ((groups.getD c.groupIdx []).getD c.nodeIdx []).length then
      readLoop groups blen
        (acc ++ (((groups.getD c.groupIdx []).getD c.nodeIdx []).drop c.textByteOffset).take
          (min (blen - acc.length)
            (((groups.getD c.groupIdx []).getD c.nodeIdx []).length - c.textByteOffset)))
        ⟨c.groupIdx, c.nodeIdx,
          c.textByteOffset
            + min (blen - acc.length)
              (((groups.getD c.groupIdx []).getD c.nodeIdx []).length - c.textByteOffset)⟩
    else if hnode : c.nodeIdx + 1 < (groups.getD c.groupIdx []).length then
      readLoop groups blen
        (acc ++ (((groups.getD c.groupIdx []).getD c.nodeIdx []).drop c.textByteOffset).take
          (min (blen - acc.length)
            (((groups.getD c.groupIdx []).getD c.nodeIdx []).length - c.textByteOffset)))
        ⟨c.groupIdx, c.nodeIdx + 1, 0⟩
    else
      readLoop groups blen
        (acc ++ (((groups.getD c.groupIdx []).getD c.nodeIdx []).drop c.textByteOffset).take
          (min (blen - acc.length)
            (((groups.getD c.groupIdx []).getD c.nodeIdx []).length - c.textByteOffset)))
        ⟨c.groupIdx + 1, 0, 0⟩
termination_by (groups.length - c.groupIdx, (groups.getD c.groupIdx []).length - c.nodeIdx, blen - acc.length)
decreasing_by
  · apply Prod.Lex.right
    apply Prod.Lex.right
    simp only [List.length_append, List.length_take, List.length_drop]
    omega
  · apply Prod.Lex.right
    apply Prod.Lex.left
    omega
  · apply Prod.Lex.left
    omega

/-- One `Cursor.Read` call with a buffer of length `blen`: the bytes read, the
EOF flag (`true` = `io.EOF`), and the cursor afterwards. -/
def cursorRead (groups : LeafGroups) (c : Cursor) (blen : Nat) :
    List Nat × Bool × Cursor :=
  readLoop groups blen [] c

/-- The full byte content of the leaf chain, in order. -/
def chainBytes (groups : LeafGroups) : List Nat :=
  (groups.map List.flatten).flatten

/-- Reading from cursor `c` until end of stream (a read of the full content
length always suffices). -/
def cursorReadAll (groups : LeafGroups) (c : Cursor) : List Nat :=
  (cursorRead groups c (chainBytes groups).length).1

/-! ## Line breaker (`text/segment/line.go` lines 15-305)

The generated property tables (`line_break_props.go` /
`east_asian_width_props.go`, produced by `gen_props.go` from the Unicode data
files) are not among the provided source files, so a rune enters the embedding
as its classification record: the line-break class `lbPropForRune` returns
(`.none_` when the rune is unlisted, the table's zero value), the
`unicode.In(r, unicode.Mn, unicode.Mc)` test used for class SA, and whether
`eaPropForRune` returns one of F/W/H, used in LB30. -/

inductive LbProp where
  | none_ | bk | cm | cr | gl | lf | nl | sp | wj | zw | ai | al | b2 | ba | bb
  | cb | cj | cl | cp | eb | em | ex | h2 | h3 | hl | hy | id | in_ | is_ | jl
  | jt | jv | ns | nu | op | po | pr | qu | ri | sa | sg | sy | xx | zwj
deriving DecidableEq, Repr

inductive LineBreakDecision where
  | NoLineBreak
  | AllowLineBreakBefore
  | RequireLineBreakBefore
  | RequireLineBreakAfter
deriving DecidableEq, Repr

structure LbRuneInfo where
  lbClass : LbProp
  saIsMnOrMc : Bool
  eaIsFWH : Bool
deriving DecidableEq, Repr

structure LineBreaker where
  lastProp : LbProp
  lastLastProp : LbProp
  inZeroWidthSpaceSeq : Bool
  inLeftBraceSpaceSeq : Bool
  inQuotationSpaceSeq : Bool
  inClosePunctSpaceSeq : Bool
  inDashSpaceSeq : Bool
  lastPropsWereRIOdd : Bool
deriving DecidableEq, Repr

/-- The zero value of the `LineBreaker` struct: the generated table's zero
line-break class is the "no property" value `lbPropNone`. -/
def LineBreaker.init : LineBreaker := ⟨.none_, .none_, false, false, false, false, false, false⟩

/-- LB1 (line.go lines 40-57): assign and resolve the line breaking class. -/
def lb1Resolve (info : LbRuneInfo) : LbProp :=
  let prop := if info.lbClass = .none_ then .xx else info.lbClass
  if prop = .ai ∨ prop = .sg ∨ prop = .xx then .al
  else if prop = .sa then (if info.saIsMnOrMc then .cm else .al)
  else if prop = .cj then .ns
  else prop

/-- The LB9 absorption guard (line.go lines 102-110), as a predicate on the
state and the resolved class: a CM/ZWJ is absorbed into the preceding base
character exactly when the previous class is none of BK, CR, LF, NL, SP, ZW,
None. -/
def lb9Absorbs (lb : LineBreaker) (prop : LbProp) : Bool :=
  decide ((prop = .cm ∨ prop = .zwj) ∧ lb.lastProp ≠ .bk ∧ lb.lastProp ≠ .cr ∧
    lb.lastProp ≠ .lf ∧ lb.lastProp ≠ .nl ∧ lb.lastProp ≠ .sp ∧
    lb.lastProp ≠ .zw ∧ lb.lastProp ≠ .none_)

/-- The rules before LB9 (LB4-LB8a, line.go lines 63-100); `some d` is a
`goto done` with decision `d` (these rules leave the class unchanged),
`none` falls through to LB9. -/
def lbEarlyDecision (lb : LineBreaker) (prop : LbProp) :
    Option LineBreakDecision :=
  -- LB4: Always break after hard line breaks.
  if prop = .bk ∧ lb.lastProp ≠ .cr then some .RequireLineBreakAfter
  -- LB5: Treat CR followed by LF, as well as CR, LF, and NL as hard line breaks.
  else if lb.lastProp = .cr ∧ prop = .lf then some .RequireLineBreakAfter
  else if lb.lastProp = .cr then some .RequireLineBreakBefore
  else if prop = .lf ∨ prop = .nl then some .RequireLineBreakAfter
  -- LB6: Do not break before hard line breaks.
  else if prop = .bk ∨ prop = .cr ∨ prop = .lf ∨ prop = .nl then some .NoLineBreak
  -- LB7: Do not break before spaces or zero width space.
  else if prop = .sp ∨ prop = .zw then some .NoLineBreak
  -- LB8: Break before any character following a zero-width space.
  else if lb.inZeroWidthSpaceSeq ∧ prop ≠ .sp then some .AllowLineBreakBefore
  -- LB8a: Do not break after a zero width joiner.
  else if lb.lastProp = .zwj then some .NoLineBreak
  else none

/-- The rules after LB9 (LB11-LB31, line.go lines 129-288); these also leave
the class unchanged. -/
def lbLateDecision (lb : LineBreaker) (prop : LbProp) (eaIsFWH : Bool) :
    LineBreakDecision :=
  -- LB11: Do not break before or after Word joiner and related characters.
  if lb.lastProp = .wj ∨ prop = .wj then .NoLineBreak
  -- LB12: Do not break after NBSP and related characters.
  else if lb.lastProp = .gl then .NoLineBreak
  -- LB12a: Do not break before NBSP and related characters, except after spaces and hyphens.
  else if lb.lastProp ≠ .sp ∧ lb.lastProp ≠ .ba ∧ lb.lastProp ≠ .hy ∧ prop = .gl then
    .NoLineBreak
  -- LB13: Do not break before close punctuation, even after spaces.
  else if prop = .cl ∨ prop = .cp ∨ prop = .ex ∨ prop = .is_ ∨ prop = .sy then
    .NoLineBreak
  -- LB14: Do not break after an opening bracket, even after spaces.
  else if lb.inLeftBraceSpaceSeq ∧ prop ≠ .sp then .NoLineBreak
  -- LB15: Do not break within quotation followed by open punctuation, even with spaces.
  else if lb.inQuotationSpaceSeq ∧ prop = .op then .NoLineBreak
  -- LB16: Do not break between closing punctuation and a nonstarter, even with spaces.
  else if lb.inClosePunctSpaceSeq ∧ prop = .ns then .NoLineBreak
  -- LB17: Do not break within em-dash pairs, even with spaces.
  else if lb.inDashSpaceSeq ∧ prop = .b2 then .NoLineBreak
  -- LB18: Break after spaces.
  else if lb.lastProp = .sp then .AllowLineBreakBefore
  -- LB19: Do not break before or after quotation marks.
  else if lb.lastProp = .qu ∨ prop = .qu then .NoLineBreak
  -- LB20: Break before and after unresolved CB.
  else if lb.lastProp = .cb ∨ prop = .cb then .AllowLineBreakBefore
  -- LB21: Do not break before hyphens, small kana, other non-starters; or after BB.
  else if prop = .ba ∨ prop = .hy ∨ prop = .ns ∨ lb.lastProp = .bb then
    .NoLineBreak
  -- LB21a: Do not break after Hebrew + Hyphen.
  else if lb.lastLastProp = .hl ∧ (lb.lastProp = .hy ∨ lb.lastProp = .ba) then
    .NoLineBreak
  -- LB21b: Do not break between Solidus and Hebrew letters.
  else if lb.lastProp = .sy ∧ prop = .hl then .NoLineBreak
  -- LB22: Do not break before ellipses.
  else if prop = .in_ then .NoLineBreak
  -- LB23: Do not break between digits and letters.
  else if ((lb.lastProp = .al ∨ lb.lastProp = .hl) ∧ prop = .nu) ∨
      (lb.lastProp = .nu ∧ (prop = .al ∨ prop = .hl)) then .NoLineBreak
  -- LB23a: Do not break between numeric prefixes and ideographs, or ideographs and postfixes.
  else if (lb.lastProp = .pr ∧ (prop = .id ∨ prop = .eb ∨ prop = .em)) ∨
      ((lb.lastProp = .id ∨ lb.lastProp = .eb ∨ lb.lastProp = .em) ∧ prop = .po) then
    .NoLineBreak
  -- LB24: Do not break between numeric prefix/postfix and letters.
  else if ((lb.lastProp = .pr ∨ lb.lastProp = .po) ∧ (prop = .al ∨ prop = .hl)) ∨
      ((lb.lastProp = .al ∨ lb.lastProp = .hl) ∧ (prop = .pr ∨ prop = .po)) then
    .NoLineBreak
  -- LB25: Do not break between pairs of classes relevant to numbers.
  else if (lb.lastProp = .cl ∧ prop = .po) ∨ (lb.lastProp = .cp ∧ prop = .po) ∨
      (lb.lastProp = .cl ∧ prop = .pr) ∨ (lb.lastProp = .cp ∧ prop = .pr) ∨
      (lb.lastProp = .nu ∧ prop = .po) ∨ (lb.lastProp = .nu ∧ prop = .pr) ∨
      (lb.lastProp = .po ∧ prop = .op) ∨ (lb.lastProp = .po ∧ prop = .nu) ∨
      (lb.lastProp = .pr ∧ prop = .op) ∨ (lb.lastProp = .pr ∧ prop = .nu) ∨
      (lb.lastProp = .hy ∧ prop = .nu) ∨ (lb.lastProp = .is_ ∧ prop = .nu) ∨
      (lb.lastProp = .nu ∧ prop = .nu) ∨ (lb.lastProp = .sy ∧ prop = .nu) then
    .NoLineBreak
  -- LB26: Do not break a Korean syllable.
  else if (lb.lastProp = .jl ∧ (prop = .jl ∨ prop = .jv ∨ prop = .h2 ∨ prop = .h3)) ∨
      ((lb.lastProp = .jv ∨ lb.lastProp = .h2) ∧ (prop = .jv ∨ prop = .jt)) ∨
      ((lb.lastProp = .jt ∨ lb.lastProp = .h3) ∧ prop = .jt) then
    .NoLineBreak
  -- LB27: Treat a Korean Syllable Block the same as ID.
  else if ((lb.lastProp = .jl ∨ lb.lastProp = .jv ∨ lb.lastProp = .jt ∨
        lb.lastProp = .h2 ∨ lb.lastProp = .h3) ∧ prop = .po) ∨
      (lb.lastProp = .pr ∧ (prop = .jl ∨ prop = .jv ∨ prop = .jt ∨
        prop = .h2 ∨ prop = .h3)) then
    .NoLineBreak
  -- LB28: Do not break between alphabetics.
  else if (lb.lastProp = .al ∨ lb.lastProp = .hl) ∧ (prop = .al ∨ prop = .hl) then
    .NoLineBreak
  -- LB29: Do not break between numeric punctuation and alphabetics.
  else if lb.lastProp = .is_ ∧ (prop = .al ∨ prop = .hl) then .NoLineBreak
  -- LB30: Do not break between letters/numbers and non-wide parentheses.
  else if (((lb.lastProp = .al ∨ lb.lastProp = .hl ∨ lb.lastProp = .nu) ∧ prop = .op) ∨
      (lb.lastProp = .cp ∧ (prop = .al ∨ prop = .hl ∨ prop = .nu))) ∧ ¬eaIsFWH then
    .NoLineBreak
  -- LB30a: No break between RI pairs preceded by an odd number of RIs.
  else if lb.lastPropsWereRIOdd ∧ prop = .ri then .NoLineBreak
  -- LB30b: Do not break between an emoji base and an emoji modifier.
  else if lb.lastProp = .eb ∧ prop = .em then .NoLineBreak
  -- LB31: Break everywhere else.
  else .AllowLineBreakBefore

/-- The rule chain LB4-LB31: the early rules, then LB9 (whose `goto done`
carries the absorbed class and flips the regional-indicator parity flag),
then the late rules.  The result triple is `(decision, prop, riFlip)`: the
decision reached, the class as possibly replaced by LB9 absorption, and
whether LB9 flipped the parity flag. -/
def lbDecide (lb : LineBreaker) (prop : LbProp) (eaIsFWH : Bool) :
    LineBreakDecision × LbProp × Bool :=
  match lbEarlyDecision lb prop with
  | some decision => (decision, prop, false)
  | none =>
    -- LB9: Do not break a combining character sequence; treat it as if it has
    -- the line breaking class of the base character in the following rules.
    if lb9Absorbs lb prop then (.NoLineBreak, lb.lastProp, decide (lb.lastProp = .ri))
    else (lbLateDecision lb prop eaIsFWH, prop, false)

/-- `LineBreaker.ProcessRune`: LB1 resolution, the LB4-LB31 chain, then the
`done` block: LB10 (remaining CM/ZWJ become AL, run last so it applies even
when earlier rules short-circuit) and the state update. -/
def LineBreaker.processRune (lb : LineBreaker) (info : LbRuneInfo) :
    LineBreakDecision × LineBreaker :=
  let res := lbDecide lb (lb1Resolve info) info.eaIsFWH
  -- LB10, at `done`
  let prop := if res.2.1 = .cm ∨ (res.2.1 = .zwj ∧ lb.lastProp ≠ .none_) then .al else res.2.1
  let riOdd := if res.2.2 then !lb.lastPropsWereRIOdd else lb.lastPropsWereRIOdd
  (res.1,
    { lastProp := prop,
      lastLastProp := lb.lastProp,
      inZeroWidthSpaceSeq := decide (prop = .zw ∨ (lb.inZeroWidthSpaceSeq ∧ prop = .sp)),
      inLeftBraceSpaceSeq := decide (prop = .op ∨ (lb.inLeftBraceSpaceSeq ∧ prop = .sp)),
      inQuotationSpaceSeq := decide (prop = .qu ∨ (lb.inQuotationSpaceSeq ∧ prop = .sp)),
      inClosePunctSpaceSeq := decide ((prop = .cl ∨ prop = .cp) ∨ (lb.inClosePunctSpaceSeq ∧ prop = .sp)),
      inDashSpaceSeq := decide (prop = .b2 ∨ (lb.inDashSpaceSeq ∧ prop = .sp)),
      lastPropsWereRIOdd := decide (prop = .ri ∧ ¬riOdd) })

/-! ## Wrapped-line iterator (`text/segment/line.go` lines 307-409)

The grapheme cluster iterator (`GraphemeClusterIter`) and `Segment` type are
not among the provided source files; the embedding takes the iterator's output
directly as the list of grapheme clusters still to be produced, each cluster a
list of runes.  The iterator's rune buffer is recorded as the list of clusters
appended to it (the source's flat rune slice is its concatenation), so that
emitted lines retain their cluster decomposition.  `Segment.HasNewline` is
modelled from the spec ("a hard newline always ends a line and is included in
it") as: the cluster contains a line feed. -/

def segmentHasNewline (gc : List Char) : Bool := gc.contains '\n'

structure LineWrapConfig where
  maxLineWidth : Nat
  widthFunc : List Char → Nat → Nat

structure WrappedLineIter where
  clusters : List (List Char)
  buffer : List (List Char)
  currentWidth : Nat
deriving DecidableEq, Repr

/-- `WrappedLineIter.NextSegment`: returns `none` for `io.EOF`, otherwise the
emitted line (as its clusters; the segment's runes are their concatenation)
and the iterator state afterwards. -/
def nextSegmentLoop (cfg : LineWrapConfig) :
    List (List Char) → List (List Char) → Nat →
    Option (List (List Char) × WrappedLineIter)
  | [], buffer, w =>
    -- io.EOF from the grapheme iterator: emit leftover runes, if any
    if buffer.isEmpty then none else some (buffer, ⟨[], [], w⟩)
  | gc :: rest, buffer, w =>
    if segmentHasNewline gc then
      -- hard line-break on newline
      some (buffer ++ [gc], ⟨rest, [], 0⟩)
    else if w + cfg.widthFunc gc w > cfg.maxLineWidth then
      if w = 0 then
        -- this grapheme cluster is too large to fit on the line: give it its
        -- own line; if the next cluster is a newline, include it in this line
        -- (the buffer and current width are left untouched here, as in the
        -- source)
        match rest with
        | gc2 :: rest2 =>
          if segmentHasNewline gc2 then some ([gc, gc2], ⟨rest2, buffer, w⟩)
          else some ([gc], ⟨gc2 :: rest2, buffer, w⟩)
        | [] => some ([gc], ⟨[], buffer, w⟩)
      else
        -- adding the next cluster would exceed the max line length: break at
        -- the end of the current line and start a new line with the cluster
        some (buffer, ⟨rest, [gc], cfg.widthFunc gc w⟩)
    else
      -- the next grapheme cluster fits in the current line
      nextSegmentLoop cfg rest (buffer ++ [gc]) (w + cfg.widthFunc gc w)

def WrappedLineIter.nextSegment (cfg : LineWrapConfig) (iter : WrappedLineIter) :
    Option (List (List Char) × WrappedLineIter) :=
  nextSegmentLoop cfg iter.clusters iter.buffer iter.currentWidth

theorem nextSegmentLoop_decreases (cfg : LineWrapConfig)
    (clusters buffer : List (List Char)) (w : Nat) (seg : List (List Char))
    (iter : WrappedLineIter)
    (h : nextSegmentLoop cfg clusters buffer w = some (seg, iter)) :
    2 * iter.clusters.length + (if iter.buffer.isEmpty then 0 else 1)
      < 2 * clusters.length + (if buffer.isEmpty then 0 else 1) := by
  induction clusters generalizing buffer w with
  | nil =>
    simp only [nextSegmentLoop] at h
    by_cases hb : buffer.isEmpty <;> simp [hb] at h
    obtain ⟨h1, h2⟩ := h
    subst h2
    simp [hb]
  | cons gc rest ih =>
    simp only [nextSegmentLoop] at h
    by_cases hnl : segmentHasNewline gc
    · simp only [hnl, if_true] at h
      cases h
      simp only [List.length_cons, List.isEmpty_nil]
      split <;> omega
    · simp only [hnl, if_false, Bool.false_eq_true] at h
      by_cases hover : w + cfg.widthFunc gc w > cfg.maxLineWidth
      · simp only [if_pos hover] at h
        by_cases hw : w = 0
        · simp only [if_pos hw] at h
          match rest, h with
          | gc2 :: rest2, h =>
            by_cases hnl2 : segmentHasNewline gc2
            · simp only [hnl2, if_true] at h
              cases h
              simp only [List.length_cons]
              split <;> omega
            · simp only [hnl2, if_false, Bool.false_eq_true] at h
              cases h
              simp only [List.length_cons]
              split <;> omega
          | [], h =>
            cases h
            simp only [List.length_cons, List.length_nil]
            split <;> omega
        · simp only [if_neg hw] at h
          cases h
          simp only [List.length_cons, List.isEmpty_cons]
          split <;> omega
      · simp only [if_neg hover] at h
        have hd := ih _ _ h
        have he : (buffer ++ [gc]).isEmpty = false := by
          simp [List.isEmpty_iff]
        rw [he] at hd
        simp only [Bool.false_eq_true, if_false, List.length_cons] at hd ⊢
        split <;> omega

/-- Drain the iterator: the list of all lines produced by successive
`NextSegment` calls, in order. -/
def wrapAll (cfg : LineWrapConfig) (iter : WrappedLineIter) :
    List (List (List Char)) :=
  match h : iter.nextSegment cfg with
  | none => []
  | some (seg, iter') => seg :: wrapAll cfg iter'
termination_by 2 * iter.clusters.length + (if iter.buffer.isEmpty then 0 else 1)
decreasing_by
  have := nextSegmentLoop_decreases cfg iter.clusters iter.buffer iter.currentWidth seg iter' h
  omega

/-! ## Word motions (`locate` package; modelled from the spec)

The implementation of the word-motion functions is code of this repository that
is not among the provided source files: only its tests (`src/unnamed/part_000`)
and callers are.  The definitions below are modelled from the spec (section
4.5): character classification is three-valued — whitespace, punctuation (ASCII
punctuation excluding underscore), word characters (everything else, including
underscore) — a class change is a word boundary, a blank line is its own word,
and the word-object forms span the classified run with or without adjacent
whitespace.  Runs never extend across line boundaries (a newline both is
whitespace and terminates the line it ends).  Documents are lists of runes
(every spec example is ASCII, where each grapheme cluster is a single rune);
positions are character offsets. -/

/-- ASCII punctuation excluding underscore: `!`-`/`, `:`-`@`, `[`-` (backquote)
without `_`, and the range from left brace to tilde. -/
def isPunctRune (c : Char) : Bool :=
  let n := c.toNat
  decide ((33 ≤ n ∧ n ≤ 47) ∨ (58 ≤ n ∧ n ≤ 64) ∨ (91 ≤ n ∧ n ≤ 96 ∧ n ≠ 95) ∨
    (123 ≤ n ∧ n ≤ 126))

def isWhitespaceRune (c : Char) : Bool :=
  decide (c = ' ' ∨ c = '\t' ∨ c = '\n' ∨ c = '\r')

/-- Character classes for word motions; the newline is whitespace that also
delimits runs, so it gets its own class for run computations. -/
inductive WordRuneClass where
  | newline
  | whitespace
  | punctuation
  | wordChar
deriving DecidableEq, Repr

def wordRuneClass (c : Char) : WordRuneClass :=
  if c = '\n' then .newline
  else if isWhitespaceRune c then .whitespace
  else if isPunctRune c then .punctuation
  else .wordChar

def classAt (s : List Char) (p : Nat) : WordRuneClass :=
  wordRuneClass (s.getD p ' ')

/-- Position `p` starts an empty line: it is a newline immediately preceded by
the start of the document or another newline. -/
def onEmptyLine (s : List Char) (p : Nat) : Bool :=
  decide (s.getD p ' ' = '\n' ∧ (p = 0 ∨ s.getD (p - 1) ' ' = '\n'))

/-- A word boundary for forward motion: a non-whitespace rune whose class
differs from its predecessor's, or the start of an empty line (a blank line is
its own word). -/
def isWordBoundary (s : List Char) (p : Nat) : Bool :=
  decide ((classAt s p ≠ .whitespace ∧ classAt s p ≠ .newline ∧
      classAt s p ≠ classAt s (p - 1)) ∨ onEmptyLine s p = true)

/-- Modelled from the spec: `NextWordStart` — scan forward for the next word
boundary; with none ahead, the position clamps to the end of the document. -/
def NextWordStart (s : List Char) (pos : Nat) : Nat :=
  (((List.range s.length).filter
      (fun p => decide (pos < p) && isWordBoundary s p)).headD s.length)

/-- A word start for backward motion: boundary positions plus position 0 when
it is not whitespace, and a document-initial empty line. -/
def isWordStart (s : List Char) (p : Nat) : Bool :=
  decide (((classAt s p ≠ .whitespace ∧ classAt s p ≠ .newline) ∧
      (p = 0 ∨ classAt s p ≠ classAt s (p - 1))) ∨ onEmptyLine s p = true)

/-- Modelled from the spec: `PrevWordStart` — scan backward for the closest
word start strictly before `pos`; with none, position 0. -/
def PrevWordStart (s : List Char) (pos : Nat) : Nat :=
  (((List.range pos).filter (fun p => isWordStart s p)).getLastD 0)

/-- Largest `q ≤ pos` in the same class run as `pos`: the latest position at or
before `pos` of the same class whose predecessor (if any) has another class. -/
def runStart (s : List Char) (pos : Nat) : Nat :=
  (((List.range (pos + 1)).filter
      (fun q => decide (classAt s q = classAt s pos ∧
        (q = 0 ∨ classAt s (q - 1) ≠ classAt s q)))).getLastD 0)

/-- Smallest `e > pos` outside the class run of `pos` (at most the length). -/
def runEnd (s : List Char) (pos : Nat) : Nat :=
  (((List.range s.length).filter
      (fun e => decide (pos < e) && decide (classAt s e ≠ classAt s pos))).headD
    s.length)

/-- Modelled from the spec: `WordObject` — the outer word object `[start, end)`
at a position: the classified run under the position plus trailing whitespace;
on whitespace, the whitespace run plus the following word; on an empty line,
the empty line plus the following whitespace-then-word. -/
def WordObject (s : List Char) (pos : Nat) : Nat × Nat :=
  if s.length = 0 then (0, 0)
  else
    let p := min pos (s.length - 1)
    if onEmptyLine s p then
      let q := if p + 1 < s.length ∧ classAt s (p + 1) = .whitespace then runEnd s (p + 1) else p + 1
      if q < s.length ∧ (classAt s q = .punctuation ∨ classAt s q = .wordChar) then
        (p, runEnd s q)
      else (p, min q s.length)
    else if classAt s p = .whitespace then
      let q := runEnd s p
      if q < s.length ∧ (classAt s q = .punctuation ∨ classAt s q = .wordChar) then
        (runStart s p, runEnd s q)
      else (runStart s p, q)
    else
      let q := runEnd s p
      if q < s.length ∧ classAt s q = .whitespace then
        (runStart s p, runEnd s q)
      else (runStart s p, q)

/-- Modelled from the spec: `InnerWordObject` — the inner word object: only
the classified run under the position; an empty line is a zero-width word. -/
def InnerWordObject (s : List Char) (pos : Nat) : Nat × Nat :=
  if s.length = 0 then (0, 0)
  else
    let p := min pos (s.length - 1)
    if onEmptyLine s p then (p, p)
    else (runStart s p, runEnd s p)

/-! ## Specification-side definitions

Everything below is used to state and prove properties of the embedded
operations; nothing below is part of the embedded program. -/

/-- Width of a display line, as the sum of the width oracle over its clusters
at their cumulative cell offsets within the line. -/
def lineWidth (cfg : LineWrapConfig) (clusters : List (List Char)) : Nat :=
  clusters.foldl (fun w gc => w + cfg.widthFunc gc w) 0

/-- The non-newline content of an emitted line: hard-wrapped lines carry the
newline cluster at their end; it occupies no cells, so it is excluded when
measuring the line against the maximum width. -/
def lineContent (seg : List (List Char)) : List (List Char) :=
  match seg.getLast? with
  | some gc => if segmentHasNewline gc then seg.dropLast else seg
  | none => seg

/-- An emitted line fits: its non-newline content has total width at most the
maximum, or is a single (oversized) grapheme cluster. -/
def LineFits (cfg : LineWrapConfig) (seg : List (List Char)) : Prop :=
  lineWidth cfg (lineContent seg) ≤ cfg.maxLineWidth ∨ ∃ u, lineContent seg = [u]

/-- The invariant the wrapped-line iterator maintains between calls (the
terminal disjunct covers the state left behind by the final end-of-input
emission, which does not reset `currentWidth`). -/
def WrapInv (cfg : LineWrapConfig) (iter : WrappedLineIter) : Prop :=
  (iter.currentWidth = lineWidth cfg iter.buffer ∧
    (iter.currentWidth ≤ cfg.maxLineWidth ∨ ∃ u, iter.buffer = [u]) ∧
    (∀ gc ∈ iter.buffer, segmentHasNewline gc = false)) ∨
  (iter.clusters = [] ∧ iter.buffer = [])

/-! Spec-side views of the tree content. -/

def numCharsIn (bytes : List Nat) : Nat :=
  (bytes.map utf8StartByteIndicator).sum

def numNewlinesIn (bytes : List Nat) : Nat :=
  bytes.countP (fun b => decide (b = 10))

def keyOfBytes (bytes : List Nat) : IndexKey :=
  ⟨numCharsIn bytes, numNewlinesIn bytes⟩

/-- Bytes of the leaf groups `lo ≤ i < hi`. -/
def spanBytes (groups : LeafGroups) (lo hi : Nat) : List Nat :=
  (((groups.drop lo).take (hi - lo)).map List.flatten).flatten

/-- Bytes of the leaf groups from index `hi` on. -/
def tailBytes (groups : LeafGroups) (hi : Nat) : List Nat :=
  ((groups.drop hi).map List.flatten).flatten

/-- Byte offset of the `p`-th start byte (specification-side restatement of
`byteOffsetForPosition`, structurally recursive without accumulators). -/
def byteOffSpec : List Nat → Nat → Nat
  | [], _ => 0
  | b :: rest, p =>
    if utf8StartByteIndicator b = 1 ∧ p = 0 then 0
    else 1 + byteOffSpec rest (p - utf8StartByteIndicator b)

/-- Byte offset just past the `p`-th newline (specification-side restatement
of `byteOffsetAfterNewline`). -/
def newlineOffSpec : List Nat → Nat → Nat
  | [], _ => 0
  | b :: rest, p =>
    if b = 10 ∧ p = 0 then 1
    else 1 + newlineOffSpec rest (p - if b = 10 then 1 else 0)

/-- A single UTF-8 character as stored: a start byte whose width equals the
unit's byte count, followed by non-start bytes. -/
def IsCharUnit (u : List Nat) : Prop :=
  match u with
  | [] => False
  | b :: rest =>
    utf8StartByteIndicator b = 1 ∧ utf8CharWidth b = u.length ∧
      ∀ x ∈ rest, utf8StartByteIndicator x = 0

/-- A byte sequence that is a concatenation of whole character units. -/
def Aligned (bytes : List Nat) : Prop :=
  ∃ units : List (List Nat), (∀ u ∈ units, IsCharUnit u) ∧ units.flatten = bytes

/-- Sum of the character counts of a key list (spec-side view of `sumKeys`). -/
def sumChars (keys : List IndexKey) : Nat :=
  (keys.map (fun k => k.numChars)).sum

/-- Sum of the newline counts of a key list. -/
def sumNewlines (keys : List IndexKey) : Nat :=
  (keys.map (fun k => k.numNewlines)).sum

/-! Well-formedness of a subtree spanning the leaf groups `lo ≤ i < hi`:
a leaf parent points at an in-range group and carries that group's per-node
keys; an inner parent's children partition the span in order, with each stored
key equal to the content key of the corresponding child's span. -/
mutual
def NodeWF (groups : LeafGroups) : InnerNode → Nat → Nat → Prop
  | .leafParent keys gIdx, lo, hi =>
    lo = gIdx ∧ hi = gIdx + 1 ∧ gIdx < groups.length ∧
      keys = (groups.getD gIdx []).map leafNodeKey ∧ keys ≠ []
  | .innerParent keys children, lo, hi =>
    children ≠ [] ∧ ChildrenWF groups children keys lo hi
def ChildrenWF (groups : LeafGroups) :
    List InnerNode → List IndexKey → Nat → Nat → Prop
  | [], keys, lo, hi => keys = [] ∧ lo = hi
  | child :: rest, keys, lo, hi =>
    ∃ mid, NodeWF groups child lo mid ∧
      (∃ ks, keys = keyOfBytes (spanBytes groups lo mid) :: ks ∧
        ChildrenWF groups rest ks mid hi)
end

def GroupsNonempty (groups : LeafGroups) : Prop := ∀ g ∈ groups, g ≠ []

def GroupsAligned (groups : LeafGroups) : Prop :=
  ∀ g ∈ groups, ∀ node ∈ g, Aligned node

/-- Well-formedness of a whole tree: the root spans all leaf groups, every
group has at least one node, and every leaf holds whole characters. -/
def TreeWF (t : Tree) : Prop :=
  NodeWF t.groups t.root 0 t.groups.length ∧ GroupsNonempty t.groups ∧
    GroupsAligned t.groups

/-- A cursor within bounds: its node index and byte offset are in range
whenever it points at a live group. -/
def CursorOK (groups : LeafGroups) (c : Cursor) : Prop :=
  c.groupIdx < groups.length →
    (c.nodeIdx < (groups.getD c.groupIdx []).length ∧
      c.textByteOffset ≤ ((groups.getD c.groupIdx []).getD c.nodeIdx []).length)

/-- The byte stream between a cursor and the end of the document. -/
def cursorRemaining (groups : LeafGroups) (c : Cursor) : List Nat :=
  if c.groupIdx < groups.length then
    ((groups.getD c.groupIdx []).getD c.nodeIdx []).drop c.textByteOffset ++
      ((groups.getD c.groupIdx []).drop (c.nodeIdx + 1)).flatten ++
      tailBytes groups (c.groupIdx + 1)
  else []

/-- A sequence of `DeleteAtPosition` calls. -/
def applyDeletes (t : Tree) (ds : List Nat) : Tree :=
  ds.foldl (fun t p => t.deleteAtPosition p) t

/-- The width function and configuration used to refute claim C6 as stated:
a zero-width cluster followed by an oversized one. -/
def c6WidthFunc : List Char → Nat → Nat :=
  fun gc _ => if gc = ['b'] then 2 else 0

def c6Config : LineWrapConfig := ⟨1, c6WidthFunc⟩

/-! # Theorems -/

/-! ## Word motions (claim C9) -/

/-- C9: the word-motion functions reproduce the spec's verbatim examples:
`NextWordStart("abc   defg   hij", 1) = 6`,
`NextWordStart("abc   defg   hij", 4) = 6`,
`PrevWordStart("abc\n\n   123", 8) = 4`,
`WordObject("abc   def  ghi", 4) = (3, 9)`, and
`InnerWordObject("abc   def  ghi", 4) = (3, 6)`. -/
theorem claim_C9_word_motion_examples :
    NextWordStart "abc   defg   hij".toList 1 = 6 ∧
    NextWordStart "abc   defg   hij".toList 4 = 6 ∧
    PrevWordStart "abc\n\n   123".toList 8 = 4 ∧
    WordObject "abc   def  ghi".toList 4 = (3, 9) ∧
    InnerWordObject "abc   def  ghi".toList 4 = (3, 6) := by
  decide

/-! ## Line breaker (claim C8) -/

theorem lbDecide_prop_of_not_absorbed (lb : LineBreaker) (prop : LbProp)
    (ea : Bool) (h : lb9Absorbs lb prop = false) :
    (lbDecide lb prop ea).2.1 = prop := by
  unfold lbDecide
  cases lbEarlyDecision lb prop with
  | some d => rfl
  | none => rw [h]; rfl

/-- C8 (amended): after every `ProcessRune` call the stored previous class is
never CM; a combining mark or ZWJ whose resolved class is not absorbed by LB9
is recorded as AL for the next call — except a ZWJ at the start of text
(previous class None), which is recorded as ZWJ; and the decision returned is
the one computed by the rule chain with the rune still carrying its inherited
CM/ZWJ class (the LB10 rewrite touches only the stored class). -/
theorem claim_C8_lb10_applied_last (lb : LineBreaker) (info : LbRuneInfo) :
    (lb.processRune info).2.lastProp ≠ .cm ∧
    ((lb1Resolve info = .cm ∨ lb1Resolve info = .zwj) →
      lb9Absorbs lb (lb1Resolve info) = false →
      ¬(lb1Resolve info = .zwj ∧ lb.lastProp = .none_) →
      (lb.processRune info).2.lastProp = .al) ∧
    (lb.processRune info).1 = (lbDecide lb (lb1Resolve info) info.eaIsFWH).1 := by
  refine ⟨?_, ?_, rfl⟩
  · show (if _ then LbProp.al else (lbDecide lb (lb1Resolve info) info.eaIsFWH).2.1) ≠ _
    split
    · intro hcontra
      cases hcontra
    · rename_i hcond
      intro hcm
      exact hcond (Or.inl hcm)
  · intro hres habs hstart
    show (if _ then LbProp.al else (lbDecide lb (lb1Resolve info) info.eaIsFWH).2.1) = _
    rw [lbDecide_prop_of_not_absorbed lb _ info.eaIsFWH habs]
    rcases hres with hcm | hzwj
    · rw [if_pos (Or.inl hcm)]
    · rw [if_pos (Or.inr ⟨hzwj, fun hnone => hstart ⟨hzwj, hnone⟩⟩)]

/-- C8, counterexample to the claim as stated: a ZWJ as the very first rune is
not absorbed by LB9 (there is no preceding base character), yet it is recorded
as ZWJ, not AL, for the next call. -/
theorem claim_C8_counterexample :
    lb1Resolve ⟨.zwj, false, false⟩ = .zwj ∧
    lb9Absorbs LineBreaker.init .zwj = false ∧
    (LineBreaker.init.processRune ⟨.zwj, false, false⟩).2.lastProp = .zwj ∧
    LbProp.zwj ≠ LbProp.al := by
  decide

/-- Witness for `claim_C8_lb10_applied_last`: a CM after a space (not absorbed
because the previous class is SP) is recorded as AL. -/
theorem claim_C8_witness :
    (lb1Resolve ⟨.cm, false, false⟩ = .cm ∨ lb1Resolve ⟨.cm, false, false⟩ = .zwj) ∧
    lb9Absorbs LineBreaker.init (lb1Resolve ⟨.cm, false, false⟩) = false ∧
    ¬(lb1Resolve ⟨.cm, false, false⟩ = .zwj ∧ LineBreaker.init.lastProp = .none_) ∧
    (LineBreaker.init.processRune ⟨.cm, false, false⟩).2.lastProp = .al :=
  ⟨Or.inl (by decide), by decide, by decide,
    (claim_C8_lb10_applied_last LineBreaker.init ⟨.cm, false, false⟩).2.1
      (Or.inl (by decide)) (by decide) (by decide)⟩

/-! ## Wrapped-line iterator (claims C6 and C7) -/

/-- C7: with an empty line buffer (current width 0), a cluster whose width
alone exceeds the maximum is emitted as its own line in a single call, never
split; and when the immediately following cluster is a hard newline, that
newline cluster is absorbed into the same emitted line (so no empty line is
spuriously produced), the iterator advancing past both. -/
theorem claim_C7_oversized_cluster_own_line (cfg : LineWrapConfig)
    (gc : List Char) (rest : List (List Char))
    (hnl : segmentHasNewline gc = false)
    (hover : cfg.maxLineWidth < cfg.widthFunc gc 0) :
    WrappedLineIter.nextSegment cfg ⟨gc :: rest, [], 0⟩ =
      match rest with
      | gc2 :: rest2 =>
        if segmentHasNewline gc2 then some ([gc, gc2], ⟨rest2, [], 0⟩)
        else some ([gc], ⟨gc2 :: rest2, [], 0⟩)
      | [] => some ([gc], ⟨[], [], 0⟩) := by
  show nextSegmentLoop cfg (gc :: rest) [] 0 = _
  unfold nextSegmentLoop
  rw [if_neg (by simp [hnl])]
  rw [if_pos (by omega)]
  rw [if_pos rfl]

/-- Witness for `claim_C7_oversized_cluster_own_line`: a two-cell cluster with
maximum width one, followed by a newline cluster. -/
theorem claim_C7_witness :
    segmentHasNewline ['W'] = false ∧
    (LineWrapConfig.mk 1 (fun _ _ => 2)).maxLineWidth <
      (LineWrapConfig.mk 1 (fun _ _ => 2)).widthFunc ['W'] 0 ∧
    WrappedLineIter.nextSegment (LineWrapConfig.mk 1 (fun _ _ => 2))
        ⟨[['W'], ['\n']], [], 0⟩ =
      some ([['W'], ['\n']], ⟨[], [], 0⟩) := by
  refine ⟨by decide, by decide, ?_⟩
  rw [claim_C7_oversized_cluster_own_line (LineWrapConfig.mk 1 (fun _ _ => 2))
    ['W'] [['\n']] (by decide) (by decide)]
  rfl

theorem wrapAll_some (cfg : LineWrapConfig) (iter : WrappedLineIter)
    (seg : List (List Char)) (iter' : WrappedLineIter)
    (h : iter.nextSegment cfg = some (seg, iter')) :
    wrapAll cfg iter = seg :: wrapAll cfg iter' := by
  rw [wrapAll]
  split
  · rename_i h2
    rw [h] at h2
    cases h2
  · rename_i s i h2
    rw [h] at h2
    cases h2
    rfl

theorem wrapAll_none (cfg : LineWrapConfig) (iter : WrappedLineIter)
    (h : iter.nextSegment cfg = none) :
    wrapAll cfg iter = [] := by
  rw [wrapAll]
  split
  · rfl
  · rename_i s i h2
    rw [h] at h2
    cases h2

theorem nextSegmentLoop_none (cfg : LineWrapConfig) :
    ∀ clusters buffer w, nextSegmentLoop cfg clusters buffer w = none →
      clusters = [] ∧ buffer = [] := by
  intro clusters
  induction clusters with
  | nil =>
    intro buffer w h
    simp only [nextSegmentLoop] at h
    by_cases hb : buffer.isEmpty
    · exact ⟨rfl, List.isEmpty_iff.mp hb⟩
    · simp [hb] at h
  | cons gc rest ih =>
    intro buffer w h
    simp only [nextSegmentLoop] at h
    by_cases hnl : segmentHasNewline gc
    · simp [hnl] at h
    · simp only [hnl, Bool.false_eq_true, if_false] at h
      by_cases hover : w + cfg.widthFunc gc w > cfg.maxLineWidth
      · simp only [if_pos hover] at h
        by_cases hw : w = 0
        · simp only [if_pos hw] at h
          match rest, h with
          | gc2 :: rest2, h =>
            by_cases hnl2 : segmentHasNewline gc2 <;> simp [hnl2] at h
          | [], h => cases h
        · simp [hw] at h
      · simp only [if_neg hover] at h
        have := ih _ _ h
        simp at this

theorem lineWidth_nil (cfg : LineWrapConfig) : lineWidth cfg [] = 0 := rfl

theorem lineWidth_concat (cfg : LineWrapConfig) (l : List (List Char))
    (gc : List Char) :
    lineWidth cfg (l ++ [gc]) = lineWidth cfg l + cfg.widthFunc gc (lineWidth cfg l) := by
  unfold lineWidth
  rw [List.foldl_append]
  simp

theorem lineWidth_singleton (cfg : LineWrapConfig) (gc : List Char) :
    lineWidth cfg [gc] = cfg.widthFunc gc 0 := by
  unfold lineWidth
  simp

theorem foldl_width_ge_init (cfg : LineWrapConfig) (l : List (List Char)) :
    ∀ init : Nat, init ≤ l.foldl (fun w gc => w + cfg.widthFunc gc w) init := by
  induction l with
  | nil => intro init; simp
  | cons gc rest ih =>
    intro init
    calc init ≤ init + cfg.widthFunc gc init := Nat.le_add_right _ _
    _ ≤ _ := ih _

theorem lineWidth_pos (cfg : LineWrapConfig)
    (hpos : ∀ gc w, 1 ≤ cfg.widthFunc gc w) (l : List (List Char)) (hl : l ≠ []) :
    1 ≤ lineWidth cfg l := by
  match l, hl with
  | gc :: rest, _ =>
    show 1 ≤ (gc :: rest).foldl (fun w gc => w + cfg.widthFunc gc w) 0
    simp only [List.foldl_cons]
    calc 1 ≤ 0 + cfg.widthFunc gc 0 := by have := hpos gc 0; omega
    _ ≤ _ := foldl_width_ge_init cfg rest _

theorem lineContent_no_newline (seg : List (List Char))
    (h : ∀ gc ∈ seg, segmentHasNewline gc = false) :
    lineContent seg = seg := by
  unfold lineContent
  match hl : seg.getLast? with
  | none => rfl
  | some gc =>
    show (if segmentHasNewline gc = true then seg.dropLast else seg) = seg
    rw [h gc (List.mem_of_mem_getLast? (Option.mem_def.mpr hl))]
    rfl

theorem lineContent_concat_newline (l : List (List Char)) (gc : List Char)
    (h : segmentHasNewline gc = true) :
    lineContent (l ++ [gc]) = l := by
  unfold lineContent
  rw [List.getLast?_concat]
  show (if segmentHasNewline gc = true then (l ++ [gc]).dropLast else l ++ [gc]) = l
  rw [h]
  simp

/-- One `NextSegment` call, starting from a state satisfying the iterator
invariant, with a positive and offset-independent width oracle: the emitted
line and leftover state carry exactly the bytes the state carried, the
emitted line fits, and the invariant is maintained. -/
theorem nextSegmentLoop_spec (cfg : LineWrapConfig)
    (hpos : ∀ gc w, 1 ≤ cfg.widthFunc gc w)
    (hindep : ∀ gc w, cfg.widthFunc gc w = cfg.widthFunc gc 0) :
    ∀ clusters buffer w seg iter',
      WrapInv cfg ⟨clusters, buffer, w⟩ →
      nextSegmentLoop cfg clusters buffer w = some (seg, iter') →
      seg.flatten ++ iter'.buffer.flatten ++ iter'.clusters.flatten
          = buffer.flatten ++ clusters.flatten ∧
        LineFits cfg seg ∧ WrapInv cfg iter' := by
  intro clusters
  induction clusters with
  | nil =>
    intro buffer w seg iter' hinv h
    simp only [nextSegmentLoop] at h
    by_cases hb : buffer.isEmpty
    · simp [hb] at h
    · simp only [hb, Bool.false_eq_true, if_false, Option.some.injEq, Prod.mk.injEq] at h
      obtain ⟨hseg, hiter⟩ := h
      subst hseg
      subst hiter
      rcases hinv with ⟨hw, hfit, hnl⟩ | ⟨_, hbe⟩
      · dsimp only at hw hfit hnl
        refine ⟨by simp, ?_, Or.inr ⟨rfl, rfl⟩⟩
        rw [LineFits, lineContent_no_newline _ hnl, ← hw]
        exact hfit
      · subst hbe
        simp at hb
  | cons gc rest ih =>
    intro buffer w seg iter' hinv h
    rcases hinv with ⟨hw, hfit, hnlb⟩ | ⟨hce, _⟩
    swap
    · cases hce
    dsimp only at hw hfit hnlb
    simp only [nextSegmentLoop] at h
    by_cases hnl : segmentHasNewline gc
    · simp only [hnl, if_true, Option.some.injEq, Prod.mk.injEq] at h
      obtain ⟨hseg, hiter⟩ := h
      subst hseg
      subst hiter
      refine ⟨by simp, ?_, Or.inl ⟨rfl, Or.inl (Nat.zero_le _), by simp⟩⟩
      rw [LineFits, lineContent_concat_newline _ _ hnl, ← hw]
      exact hfit
    · simp only [hnl, Bool.false_eq_true, if_false] at h
      by_cases hover : w + cfg.widthFunc gc w > cfg.maxLineWidth
      · simp only [if_pos hover] at h
        by_cases hw0 : w = 0
        · simp only [if_pos hw0] at h
          have hbe : buffer = [] := by
            by_contra hne
            have := lineWidth_pos cfg hpos buffer hne
            omega
          subst hbe
          match rest, h with
          | gc2 :: rest2, h =>
            by_cases hnl2 : segmentHasNewline gc2
            · simp only [hnl2, if_true, Option.some.injEq, Prod.mk.injEq] at h
              obtain ⟨hseg, hiter⟩ := h
              subst hseg
              subst hiter
              refine ⟨by simp, ?_, Or.inl ⟨hw, hfit, by simp⟩⟩
              rw [LineFits]
              have : lineContent [gc, gc2] = [gc] :=
                lineContent_concat_newline [gc] gc2 hnl2
              rw [this]
              exact Or.inr ⟨gc, rfl⟩
            · simp only [hnl2, Bool.false_eq_true, if_false, Option.some.injEq,
                Prod.mk.injEq] at h
              obtain ⟨hseg, hiter⟩ := h
              subst hseg
              subst hiter
              refine ⟨by simp, ?_, Or.inl ⟨hw, hfit, by simp⟩⟩
              rw [LineFits, lineContent_no_newline [gc] (by simpa using hnl)]
              exact Or.inr ⟨gc, rfl⟩
          | [], h =>
            simp only [Option.some.injEq, Prod.mk.injEq] at h
            obtain ⟨hseg, hiter⟩ := h
            subst hseg
            subst hiter
            refine ⟨by simp, ?_, Or.inl ⟨hw, hfit, by simp⟩⟩
            rw [LineFits, lineContent_no_newline [gc] (by simpa using hnl)]
            exact Or.inr ⟨gc, rfl⟩
        · simp only [if_neg hw0] at h
          simp only [Option.some.injEq, Prod.mk.injEq] at h
          obtain ⟨hseg, hiter⟩ := h
          subst hseg
          subst hiter
          refine ⟨by simp, ?_, ?_⟩
          · rw [LineFits, lineContent_no_newline _ hnlb, ← hw]
            exact hfit
          · refine Or.inl ⟨?_, Or.inr ⟨gc, rfl⟩, by simpa using hnl⟩
            show cfg.widthFunc gc w = lineWidth cfg [gc]
            rw [lineWidth_singleton, hindep gc w]
      · simp only [if_neg hover] at h
        have hmid : WrapInv cfg ⟨rest, buffer ++ [gc], w + cfg.widthFunc gc w⟩ := by
          refine Or.inl ⟨?_, Or.inl (by dsimp only; omega), ?_⟩
          · show w + cfg.widthFunc gc w = lineWidth cfg (buffer ++ [gc])
            rw [lineWidth_concat, ← hw]
          · intro x hx
            rcases List.mem_append.mp hx with hx | hx
            · exact hnlb x hx
            · rcases List.mem_singleton.mp hx with rfl
              simpa using hnl
        obtain ⟨hflat, hfits, hinv'⟩ := ih _ _ _ _ hmid h
        refine ⟨?_, hfits, hinv'⟩
        rw [hflat]
        simp

/-- Draining the iterator from an invariant state: the concatenation of all
emitted lines is exactly the buffered plus pending content, and every emitted
line fits. -/
theorem wrapAll_spec (cfg : LineWrapConfig)
    (hpos : ∀ gc w, 1 ≤ cfg.widthFunc gc w)
    (hindep : ∀ gc w, cfg.widthFunc gc w = cfg.widthFunc gc 0)
    (iter : WrappedLineIter) (hinv : WrapInv cfg iter) :
    ((wrapAll cfg iter).map (fun seg => seg.flatten)).flatten
        = iter.buffer.flatten ++ iter.clusters.flatten ∧
      ∀ seg ∈ wrapAll cfg iter, LineFits cfg seg := by
  induction iter using wrapAll.induct cfg with
  | case1 iter hnone =>
    rw [wrapAll_none cfg iter hnone]
    obtain ⟨hc, hb⟩ := nextSegmentLoop_none cfg _ _ _ hnone
    simp [hc, hb]
  | case2 iter seg iter' hsome ih =>
    rw [wrapAll_some cfg iter seg iter' hsome]
    obtain ⟨hflat, hfits, hinv'⟩ :=
      nextSegmentLoop_spec cfg hpos hindep iter.clusters iter.buffer
        iter.currentWidth seg iter' hinv hsome
    obtain ⟨ihflat, ihfits⟩ := ih hinv'
    constructor
    · simp only [List.map_cons, List.flatten_cons]
      rw [ihflat, ← List.append_assoc]
      exact hflat
    · intro s hs
      rcases List.mem_cons.mp hs with rfl | hs
      · exact hfits
      · exact ihfits s hs

/-- C6 (amended): when the width oracle assigns every grapheme cluster a
positive width that does not depend on the cell offset, concatenating the
lines produced by successive `NextSegment` calls reproduces the input exactly,
and every emitted line, after setting aside its trailing hard-newline cluster,
either has total cell width at most the maximum or consists of a single
(oversized) grapheme cluster. -/
theorem claim_C6_wrap_fidelity (cfg : LineWrapConfig)
    (clusters : List (List Char))
    (hpos : ∀ gc w, 1 ≤ cfg.widthFunc gc w)
    (hindep : ∀ gc w, cfg.widthFunc gc w = cfg.widthFunc gc 0) :
    ((wrapAll cfg ⟨clusters, [], 0⟩).map (fun seg => seg.flatten)).flatten
        = clusters.flatten ∧
      ∀ seg ∈ wrapAll cfg ⟨clusters, [], 0⟩, LineFits cfg seg := by
  have h := wrapAll_spec cfg hpos hindep ⟨clusters, [], 0⟩
    (Or.inl ⟨rfl, Or.inl (Nat.zero_le _), by simp⟩)
  simpa using h

/-- Witness for `claim_C6_wrap_fidelity`: unit-width clusters, maximum width
two, with a hard newline in the middle. -/
theorem claim_C6_witness :
    (∀ gc w, 1 ≤ (LineWrapConfig.mk 2 (fun _ _ => 1)).widthFunc gc w) ∧
    (∀ gc w, (LineWrapConfig.mk 2 (fun _ _ => 1)).widthFunc gc w
        = (LineWrapConfig.mk 2 (fun _ _ => 1)).widthFunc gc 0) ∧
    ((wrapAll (LineWrapConfig.mk 2 (fun _ _ => 1))
          ⟨[['a'], ['b'], ['\n'], ['c']], [], 0⟩).map
        (fun seg => seg.flatten)).flatten = [['a'], ['b'], ['\n'], ['c']].flatten ∧
    ∀ seg ∈ wrapAll (LineWrapConfig.mk 2 (fun _ _ => 1))
        ⟨[['a'], ['b'], ['\n'], ['c']], [], 0⟩, LineFits (LineWrapConfig.mk 2 (fun _ _ => 1)) seg :=
  ⟨fun _ _ => Nat.le_refl 1, fun _ _ => rfl,
    (claim_C6_wrap_fidelity (LineWrapConfig.mk 2 (fun _ _ => 1))
      [['a'], ['b'], ['\n'], ['c']] (fun _ _ => Nat.le_refl 1) (fun _ _ => rfl)).1,
    (claim_C6_wrap_fidelity (LineWrapConfig.mk 2 (fun _ _ => 1))
      [['a'], ['b'], ['\n'], ['c']] (fun _ _ => Nat.le_refl 1) (fun _ _ => rfl)).2⟩

/-- C6, counterexample to the claim as stated ("for every width function"):
with maximum width 1 and a width oracle giving cluster `a` width 0 and
cluster `b` width 2, the iterator emits `b`'s line before the buffered `a`,
so concatenating the emitted lines does not reproduce the input. -/
theorem claim_C6_counterexample :
    ((wrapAll c6Config ⟨[['a'], ['b']], [], 0⟩).map
        (fun seg => seg.flatten)).flatten ≠ [['a'], ['b']].flatten := by
  rw [wrapAll_some c6Config _ [['b']] ⟨[], [['a']], 0⟩ (by decide)]
  rw [wrapAll_some c6Config _ [['a']] ⟨[], [], 0⟩ (by decide)]
  rw [wrapAll_none c6Config _ (by decide)]
  decide

/-! ## Basic facts about byte counting and offsets -/

theorem utf8StartByteIndicator_cases (b : Nat) :
    utf8StartByteIndicator b = 0 ∨ utf8StartByteIndicator b = 1 := by
  unfold utf8StartByteIndicator
  split <;> simp

theorem utf8StartByteIndicator_newline : utf8StartByteIndicator 10 = 1 := by decide

theorem numCharsIn_nil : numCharsIn [] = 0 := rfl

theorem numCharsIn_cons (b : Nat) (l : List Nat) :
    numCharsIn (b :: l) = utf8StartByteIndicator b + numCharsIn l := by
  simp [numCharsIn]

theorem numCharsIn_append (a b : List Nat) :
    numCharsIn (a ++ b) = numCharsIn a + numCharsIn b := by
  simp [numCharsIn]

theorem numNewlinesIn_append (a b : List Nat) :
    numNewlinesIn (a ++ b) = numNewlinesIn a + numNewlinesIn b := by
  simp [numNewlinesIn, List.countP_append]

theorem keyOfBytes_append (a b : List Nat) :
    keyOfBytes (a ++ b) = addKey (keyOfBytes a) (keyOfBytes b) := by
  simp [keyOfBytes, addKey, numCharsIn_append, numNewlinesIn_append]

theorem leafNodeKey_loop (l : List Nat) :
    ∀ k : IndexKey,
      l.foldl (fun key b =>
        ({ numChars := key.numChars + utf8StartByteIndicator b,
           numNewlines := key.numNewlines + if b = 10 then 1 else 0 } : IndexKey)) k
        = addKey k (keyOfBytes l) := by
  induction l with
  | nil => intro k; simp [addKey, keyOfBytes, numCharsIn, numNewlinesIn]
  | cons b rest ih =>
    intro k
    rw [List.foldl_cons, ih]
    simp [addKey, keyOfBytes, numCharsIn_cons, numNewlinesIn, List.countP_cons]
    constructor
    · omega
    · by_cases hb : b = 10 <;> simp [hb] <;> omega

/-- The stored per-leaf key is the content key of the leaf's bytes. -/
theorem leafNodeKey_eq (l : List Nat) : leafNodeKey l = keyOfBytes l := by
  unfold leafNodeKey
  rw [leafNodeKey_loop]
  simp [addKey, keyOfBytes]

theorem sumKeys_loop (keys : List IndexKey) :
    ∀ k : IndexKey, keys.foldl addKey k = addKey k (sumKeys keys) := by
  induction keys with
  | nil => intro k; simp [sumKeys, addKey]
  | cons key rest ih =>
    intro k
    rw [List.foldl_cons, ih]
    show _ = addKey k ((key :: rest).foldl addKey ⟨0, 0⟩)
    rw [List.foldl_cons, ih]
    simp [addKey]
    omega

theorem sumKeys_cons (key : IndexKey) (keys : List IndexKey) :
    sumKeys (key :: keys) = addKey key (sumKeys keys) := by
  show (key :: keys).foldl addKey ⟨0, 0⟩ = _
  rw [List.foldl_cons, sumKeys_loop]
  simp [addKey]

/-- The loop of `byteOffsetForPosition` against its accumulator-free
restatement. -/
theorem byteOffsetForPositionLoop_spec (l : List Nat) :
    ∀ charPos i n, n ≤ charPos →
      byteOffsetForPositionLoop l charPos i n = i + byteOffSpec l (charPos - n) := by
  induction l with
  | nil => intro charPos i n h; simp [byteOffsetForPositionLoop, byteOffSpec]
  | cons b rest ih =>
    intro charPos i n h
    rw [byteOffsetForPositionLoop, byteOffSpec]
    rcases utf8StartByteIndicator_cases b with hb | hb
    · rw [if_neg (by omega), if_neg (by rw [hb]; omega), hb]
      rw [ih charPos (i + 1) (n + 0) (by omega)]
      have : charPos - (n + 0) = charPos - n - 0 := by omega
      rw [this]
      omega
    · by_cases hcp : n = charPos
      · rw [if_pos ⟨by omega, hcp⟩, if_pos ⟨hb, by omega⟩]
        omega
      · rw [if_neg (by omega), if_neg (by omega), hb]
        rw [ih charPos (i + 1) (n + 1) (by omega)]
        have : charPos - (n + 1) = charPos - n - 1 := by omega
        rw [this]
        omega

theorem byteOffsetForPosition_spec (l : List Nat) (charPos : Nat) :
    byteOffsetForPosition l charPos = byteOffSpec l charPos := by
  unfold byteOffsetForPosition
  rw [byteOffsetForPositionLoop_spec l charPos 0 0 (Nat.zero_le _)]
  simp

theorem byteOffSpec_le_length (l : List Nat) : ∀ p, byteOffSpec l p ≤ l.length := by
  induction l with
  | nil => intro p; simp [byteOffSpec]
  | cons b rest ih =>
    intro p
    rw [byteOffSpec]
    split
    · simp
    · have := ih (p - utf8StartByteIndicator b)
      simp
      omega

theorem byteOffSpec_ge (l : List Nat) :
    ∀ p, numCharsIn l ≤ p → byteOffSpec l p = l.length := by
  induction l with
  | nil => intro p h; simp [byteOffSpec]
  | cons b rest ih =>
    intro p h
    rw [numCharsIn_cons] at h
    rcases utf8StartByteIndicator_cases b with hb | hb
    · rw [byteOffSpec, if_neg (by rw [hb]; omega), ih _ (by omega)]
      simp [hb]
      omega
    · rw [byteOffSpec, if_neg (by omega), ih _ (by rw [hb]; omega)]
      simp
      omega

theorem byteOffSpec_append (a b : List Nat) :
    ∀ p, byteOffSpec (a ++ b) p =
      if p < numCharsIn a then byteOffSpec a p
      else a.length + byteOffSpec b (p - numCharsIn a) := by
  induction a with
  | nil =>
    intro p
    rw [List.nil_append, numCharsIn_nil, if_neg (by omega)]
    simp
  | cons x a ih =>
    intro p
    rw [List.cons_append, byteOffSpec, byteOffSpec, numCharsIn_cons, ih, Nat.sub_sub]
    rcases utf8StartByteIndicator_cases x with hx | hx <;> rw [hx] <;>
      simp only [List.length_cons] <;> split_ifs <;> (try omega) <;>
      simp_all <;> omega

theorem numNewlinesIn_nil : numNewlinesIn [] = 0 := rfl

theorem numNewlinesIn_cons (b : Nat) (l : List Nat) :
    numNewlinesIn (b :: l) = (if b = 10 then 1 else 0) + numNewlinesIn l := by
  simp [numNewlinesIn, List.countP_cons]
  split <;> omega

theorem byteOffsetAfterNewlineLoop_spec (l : List Nat) :
    ∀ newlinePos i n, n ≤ newlinePos →
      byteOffsetAfterNewlineLoop l newlinePos i n
        = i + newlineOffSpec l (newlinePos - n) := by
  induction l with
  | nil => intro np i n h; simp [byteOffsetAfterNewlineLoop, newlineOffSpec]
  | cons b rest ih =>
    intro np i n h
    rw [byteOffsetAfterNewlineLoop, newlineOffSpec]
    by_cases hb : b = 10
    · rw [if_pos hb]
      by_cases hnp : n = np
      · rw [if_pos hnp, if_pos ⟨hb, by omega⟩]
      · rw [if_neg hnp, if_neg (by simp [hb]; omega)]
        rw [ih np (i + 1) (n + 1) (by omega)]
        rw [if_pos hb]
        have : np - (n + 1) = np - n - 1 := by omega
        rw [this]
        omega
    · rw [if_neg hb, if_neg (by simp [hb]), if_neg hb]
      rw [ih np (i + 1) n h]
      simp only [Nat.sub_zero]
      omega

theorem byteOffsetAfterNewline_spec (l : List Nat) (newlinePos : Nat) :
    byteOffsetAfterNewline l newlinePos = newlineOffSpec l newlinePos := by
  unfold byteOffsetAfterNewline
  rw [byteOffsetAfterNewlineLoop_spec l newlinePos 0 0 (Nat.zero_le _)]
  simp

theorem newlineOffSpec_le_length (l : List Nat) :
    ∀ p, newlineOffSpec l p ≤ l.length := by
  induction l with
  | nil => intro p; simp [newlineOffSpec]
  | cons b rest ih =>
    intro p
    rw [newlineOffSpec]
    split
    · simp
    · have := ih (p - if b = 10 then 1 else 0)
      simp
      omega

theorem newlineOffSpec_ge (l : List Nat) :
    ∀ p, numNewlinesIn l ≤ p → newlineOffSpec l p = l.length := by
  induction l with
  | nil => intro p h; simp [newlineOffSpec]
  | cons b rest ih =>
    intro p h
    rw [numNewlinesIn_cons] at h
    by_cases hb : b = 10
    · rw [newlineOffSpec, if_neg (by simp [hb] at h ⊢; omega), ih _ (by simp [hb] at h ⊢; omega)]
      simp
      omega
    · rw [newlineOffSpec, if_neg (by simp [hb]), ih _ (by simp [hb] at h ⊢; omega)]
      simp
      omega

theorem newlineOffSpec_append (a b : List Nat) :
    ∀ p, newlineOffSpec (a ++ b) p =
      if p < numNewlinesIn a then newlineOffSpec a p
      else a.length + newlineOffSpec b (p - numNewlinesIn a) := by
  induction a with
  | nil =>
    intro p
    rw [List.nil_append, numNewlinesIn_nil, if_neg (by omega)]
    simp
  | cons x a ih =>
    intro p
    rw [List.cons_append, newlineOffSpec, newlineOffSpec, numNewlinesIn_cons, ih, Nat.sub_sub]
    simp only [List.length_cons]
    split_ifs <;> (try omega) <;> simp_all <;> omega

/-! ## Span and tail decomposition of the leaf chain -/

theorem numCharsIn_flatten (ls : List (List Nat)) :
    numCharsIn ls.flatten = (ls.map numCharsIn).sum := by
  induction ls with
  | nil => rfl
  | cons x rest ih => simp [numCharsIn_append, ih]

theorem numNewlinesIn_flatten (ls : List (List Nat)) :
    numNewlinesIn ls.flatten = (ls.map numNewlinesIn).sum := by
  induction ls with
  | nil => rfl
  | cons x rest ih => simp [numNewlinesIn_append, ih]

theorem spanBytes_self (groups : LeafGroups) (lo : Nat) :
    spanBytes groups lo lo = [] := by
  simp [spanBytes]

theorem spanBytes_concat (groups : LeafGroups) (lo mid hi : Nat)
    (h1 : lo ≤ mid) (h2 : mid ≤ hi) :
    spanBytes groups lo mid ++ spanBytes groups mid hi = spanBytes groups lo hi := by
  unfold spanBytes
  rw [← List.flatten_append, ← List.map_append]
  have hsum : hi - lo = (mid - lo) + (hi - mid) := by omega
  have hdd : (groups.drop lo).drop (mid - lo) = groups.drop mid := by
    rw [List.drop_drop]
    congr 1
    omega
  rw [hsum, List.take_add, hdd]

theorem spanBytes_single (groups : LeafGroups) (gIdx : Nat)
    (h : gIdx < groups.length) :
    spanBytes groups gIdx (gIdx + 1) = (groups.getD gIdx []).flatten := by
  unfold spanBytes
  have : (groups.drop gIdx).take (gIdx + 1 - gIdx) = [groups.getD gIdx []] := by
    have hd : groups.drop gIdx = groups[gIdx] :: groups.drop (gIdx + 1) :=
      List.drop_eq_getElem_cons h
    rw [List.getD_eq_getElem?_getD, List.getElem?_eq_getElem h]
    have hamt : gIdx + 1 - gIdx = 1 := by omega
    rw [hamt, hd]
    rfl
  rw [this]
  simp only [List.map_cons, List.map_nil, List.flatten_cons, List.flatten_nil,
    List.append_nil]

theorem tailBytes_decomp (groups : LeafGroups) (mid hi : Nat) (h : mid ≤ hi) :
    tailBytes groups mid = spanBytes groups mid hi ++ tailBytes groups hi := by
  unfold tailBytes spanBytes
  rw [← List.flatten_append, ← List.map_append]
  have hdd : (groups.drop mid).drop (hi - mid) = groups.drop hi := by
    rw [List.drop_drop]
    congr 1
    omega
  conv_lhs => rw [← List.take_append_drop (hi - mid) (groups.drop mid), hdd]

theorem chainBytes_eq_tail (groups : LeafGroups) :
    chainBytes groups = tailBytes groups 0 := by
  simp [chainBytes, tailBytes]

theorem tailBytes_past (groups : LeafGroups) (hi : Nat) (h : groups.length ≤ hi) :
    tailBytes groups hi = [] := by
  unfold tailBytes
  rw [List.drop_eq_nil_of_le h]
  rfl

/-! ## Locate loops -/

theorem sumChars_cons (k : IndexKey) (keys : List IndexKey) :
    sumChars (k :: keys) = k.numChars + sumChars keys := by
  simp [sumChars]

theorem sumNewlines_cons (k : IndexKey) (keys : List IndexKey) :
    sumNewlines (k :: keys) = k.numNewlines + sumNewlines keys := by
  simp [sumNewlines]

theorem sumKeys_numChars (keys : List IndexKey) :
    (sumKeys keys).numChars = sumChars keys := by
  induction keys with
  | nil => rfl
  | cons k rest ih => rw [sumKeys_cons, sumChars_cons]; simp [addKey, ih]

theorem sumKeys_numNewlines (keys : List IndexKey) :
    (sumKeys keys).numNewlines = sumNewlines keys := by
  induction keys with
  | nil => rfl
  | cons k rest ih => rw [sumKeys_cons, sumNewlines_cons]; simp [addKey, ih]

/-- `locatePosition` on an in-range position: the index of the child whose
character range contains the position, and the position relative to that
child. -/
theorem locatePositionLoop_found (keys : List IndexKey) :
    ∀ charPos i c, c ≤ charPos → charPos - c < sumChars keys →
      ∃ j, j < keys.length ∧
        locatePositionLoop keys charPos i c
          = (i + j, (charPos - c) - sumChars (keys.take j)) ∧
        sumChars (keys.take j) ≤ charPos - c ∧
        charPos - c < sumChars (keys.take (j + 1)) := by
  induction keys with
  | nil => intro charPos i c hc h; simp [sumChars] at h
  | cons k rest ih =>
    intro charPos i c hc h
    rw [locatePositionLoop]
    by_cases hlt : charPos < c + k.numChars
    · refine ⟨0, by simp, ?_, ?_, ?_⟩
      · rw [if_pos hlt]
        simp [sumChars]
      · simp [sumChars]
      · simp [sumChars_cons, sumChars]
        omega
    · rw [if_neg hlt]
      rw [sumChars_cons] at h
      obtain ⟨j, hj, heq, hle, hlt2⟩ :=
        ih charPos (i + 1) (c + k.numChars) (by omega) (by omega)
      refine ⟨j + 1, by simp; omega, ?_, ?_, ?_⟩
      · rw [heq, List.take_succ_cons, sumChars_cons, Prod.mk.injEq]
        exact ⟨by omega, by omega⟩
      · rw [List.take_succ_cons, sumChars_cons]
        omega
      · rw [List.take_succ_cons, sumChars_cons]
        omega

/-- `locatePosition` on an out-of-range position: the last child, with the
full character total as the adjusted position. -/
theorem locatePositionLoop_clamp (keys : List IndexKey) :
    ∀ charPos i c, keys ≠ [] → c ≤ charPos → sumChars keys ≤ charPos - c →
      locatePositionLoop keys charPos i c = (i + keys.length - 1, c + sumChars keys) := by
  induction keys with
  | nil => intro _ _ _ h; exact absurd rfl h
  | cons k rest ih =>
    intro charPos i c _ hc h
    rw [sumChars_cons] at h
    rw [locatePositionLoop, if_neg (by omega)]
    match rest with
    | [] =>
      rw [locatePositionLoop, Prod.mk.injEq]
      simp only [List.length_cons, List.length_nil, sumChars_cons,
        show sumChars ([] : List IndexKey) = 0 from rfl]
      exact ⟨by trivial, by omega⟩
    | k2 :: rest2 =>
      rw [ih charPos (i + 1) (c + k.numChars) (by simp) (by omega) (by omega),
        Prod.mk.injEq]
      simp only [List.length_cons, sumChars_cons]
      exact ⟨by omega, by omega⟩

/-- The newline locate loop on an in-range newline index. -/
theorem locateNewlineLoop_found (keys : List IndexKey) :
    ∀ newlinePos i c, c ≤ newlinePos → newlinePos - c < sumNewlines keys →
      ∃ j, j < keys.length ∧
        locateNewlineLoop keys newlinePos i c
          = (i + j, (newlinePos - c) - sumNewlines (keys.take j)) ∧
        sumNewlines (keys.take j) ≤ newlinePos - c ∧
        newlinePos - c < sumNewlines (keys.take (j + 1)) := by
  induction keys with
  | nil => intro np i c hc h; simp [sumNewlines] at h
  | cons k rest ih =>
    intro np i c hc h
    match rest with
    | [] =>
      rw [show locateNewlineLoop [k] np i c = (i, np - c) from rfl]
      refine ⟨0, by simp, ?_, by simp [sumNewlines], ?_⟩
      · simp [sumNewlines]
      · simpa [sumNewlines] using h
    | k2 :: rest2 =>
      rw [locateNewlineLoop]
      by_cases hlt : np < c + k.numNewlines
      · refine ⟨0, by simp, ?_, by simp [sumNewlines], ?_⟩
        · rw [if_pos hlt]
          simp [sumNewlines]
        · rw [List.take_succ_cons, sumNewlines_cons]
          simp [sumNewlines]
          omega
      · rw [if_neg hlt]
        rw [sumNewlines_cons] at h
        obtain ⟨j, hj, heq, hle, hlt2⟩ :=
          ih np (i + 1) (c + k.numNewlines) (by omega) (by omega)
        refine ⟨j + 1, by simp only [List.length_cons] at hj ⊢; omega, ?_, ?_, ?_⟩
        · rw [heq, List.take_succ_cons, sumNewlines_cons, Prod.mk.injEq]
          exact ⟨by omega, by omega⟩
        · rw [List.take_succ_cons, sumNewlines_cons]
          omega
        · rw [List.take_succ_cons, sumNewlines_cons]
          omega

/-- The newline locate loop on an out-of-range newline index: the last child,
with the newline counts of all earlier children subtracted (no clamping of the
adjusted index). -/
theorem locateNewlineLoop_clamp (keys : List IndexKey) :
    ∀ newlinePos i c, keys ≠ [] → c ≤ newlinePos →
      sumNewlines keys ≤ newlinePos - c →
      locateNewlineLoop keys newlinePos i c
        = (i + keys.length - 1,
           (newlinePos - c) - sumNewlines (keys.take (keys.length - 1))) := by
  induction keys with
  | nil => intro _ _ _ h; exact absurd rfl h
  | cons k rest ih =>
    intro np i c _ hc h
    rw [sumNewlines_cons] at h
    match rest with
    | [] =>
      rw [show locateNewlineLoop [k] np i c = (i, np - c) from rfl]
      simp [sumNewlines]
    | k2 :: rest2 =>
      rw [locateNewlineLoop, if_neg (by omega)]
      rw [ih np (i + 1) (c + k.numNewlines) (by simp) (by omega) (by omega),
        Prod.mk.injEq]
      simp only [List.length_cons, Nat.add_sub_cancel, List.take_succ_cons,
        sumNewlines_cons]
      exact ⟨by omega, by omega⟩

/-! ## Well-formedness: structural facts -/

theorem childrenWF_keys_length (groups : LeafGroups) :
    ∀ (ns : List InnerNode) (ks : List IndexKey) (lo hi : Nat),
      ChildrenWF groups ns ks lo hi → ks.length = ns.length := by
  intro ns
  induction ns with
  | nil =>
    intro ks lo hi h
    rw [ChildrenWF] at h
    rw [h.1]
    rfl
  | cons child rest ih =>
    intro ks lo hi h
    rw [ChildrenWF] at h
    obtain ⟨mid, hn, ks', hks, hrest⟩ := h
    subst hks
    simp [ih _ _ _ hrest]

mutual
theorem nodeWF_bounds (groups : LeafGroups) :
    ∀ (n : InnerNode) (lo hi : Nat), NodeWF groups n lo hi →
      lo < hi ∧ hi ≤ groups.length
  | .leafParent keys gIdx, lo, hi, h => by
    rw [NodeWF] at h
    omega
  | .innerParent keys children, lo, hi, h => by
    rw [NodeWF] at h
    have := childrenWF_bounds groups children keys lo hi h.2
    have hne := h.1
    tauto
theorem childrenWF_bounds (groups : LeafGroups) :
    ∀ (ns : List InnerNode) (ks : List IndexKey) (lo hi : Nat),
      ChildrenWF groups ns ks lo hi →
      lo ≤ hi ∧ (ns ≠ [] → lo < hi ∧ hi ≤ groups.length)
  | [], ks, lo, hi, h => by
    rw [ChildrenWF] at h
    exact ⟨le_of_eq h.2, fun hne => absurd rfl hne⟩
  | child :: rest, ks, lo, hi, h => by
    rw [ChildrenWF] at h
    obtain ⟨mid, hn, ks', hks, hrest⟩ := h
    have h1 := nodeWF_bounds groups child lo mid hn
    have h2 := childrenWF_bounds groups rest ks' mid hi hrest
    refine ⟨by omega, fun _ => ?_⟩
    rcases h2 with ⟨hmh, h2⟩
    by_cases hre : rest = []
    · subst hre
      rw [ChildrenWF] at hrest
      omega
    · have := h2 hre
      omega
end

theorem childrenWF_sums (groups : LeafGroups) :
    ∀ (ns : List InnerNode) (ks : List IndexKey) (lo hi : Nat),
      ChildrenWF groups ns ks lo hi →
      sumChars ks = numCharsIn (spanBytes groups lo hi) ∧
        sumNewlines ks = numNewlinesIn (spanBytes groups lo hi) := by
  intro ns
  induction ns with
  | nil =>
    intro ks lo hi h
    rw [ChildrenWF] at h
    obtain ⟨hks, hlo⟩ := h
    subst hks
    subst hlo
    simp [sumChars, sumNewlines, spanBytes_self, numCharsIn_nil, numNewlinesIn_nil]
  | cons child rest ih =>
    intro ks lo hi h
    rw [ChildrenWF] at h
    obtain ⟨mid, hn, ks', hks, hrest⟩ := h
    subst hks
    obtain ⟨hlm, _⟩ := nodeWF_bounds groups child lo mid hn
    obtain ⟨hmh, _⟩ := childrenWF_bounds groups rest ks' mid hi hrest
    obtain ⟨ihc, ihn⟩ := ih _ _ _ hrest
    rw [sumChars_cons, sumNewlines_cons, ihc, ihn,
      ← spanBytes_concat groups lo mid hi (by omega) hmh,
      numCharsIn_append, numNewlinesIn_append]
    simp [keyOfBytes]

/-! ## Walking a leaf group -/

theorem sumChars_take_succ (keys : List IndexKey) :
    ∀ j, j < keys.length →
      sumChars (keys.take (j + 1))
        = sumChars (keys.take j) + (keys.getD j ⟨0, 0⟩).numChars := by
  induction keys with
  | nil => intro j hj; simp at hj
  | cons k rest ih =>
    intro j hj
    match j with
    | 0 => simp [sumChars_cons, sumChars]
    | j + 1 =>
      rw [List.take_succ_cons, List.take_succ_cons, sumChars_cons, sumChars_cons,
        ih j (by simpa using hj)]
      simp
      omega

theorem sumNewlines_take_succ (keys : List IndexKey) :
    ∀ j, j < keys.length →
      sumNewlines (keys.take (j + 1))
        = sumNewlines (keys.take j) + (keys.getD j ⟨0, 0⟩).numNewlines := by
  induction keys with
  | nil => intro j hj; simp at hj
  | cons k rest ih =>
    intro j hj
    match j with
    | 0 => simp [sumNewlines_cons, sumNewlines]
    | j + 1 =>
      rw [List.take_succ_cons, List.take_succ_cons, sumNewlines_cons, sumNewlines_cons,
        ih j (by simpa using hj)]
      simp
      omega

theorem getD_map_leafNodeKey (g : List (List Nat)) :
    ∀ j, j < g.length →
      (g.map leafNodeKey).getD j ⟨0, 0⟩ = leafNodeKey (g.getD j []) := by
  induction g with
  | nil => intro j hj; simp at hj
  | cons x rest ih =>
    intro j hj
    match j with
    | 0 => rfl
    | j + 1 => exact ih j (by simpa using hj)

theorem sumChars_map_leafNodeKey (g : List (List Nat)) :
    sumChars (g.map leafNodeKey) = numCharsIn g.flatten := by
  induction g with
  | nil => rfl
  | cons x rest ih =>
    simp only [List.map_cons, sumChars_cons, List.flatten_cons, numCharsIn_append, ih,
      leafNodeKey_eq]
    rfl

theorem sumNewlines_map_leafNodeKey (g : List (List Nat)) :
    sumNewlines (g.map leafNodeKey) = numNewlinesIn g.flatten := by
  induction g with
  | nil => rfl
  | cons x rest ih =>
    simp only [List.map_cons, sumNewlines_cons, List.flatten_cons, numNewlinesIn_append,
      ih, leafNodeKey_eq]
    rfl

theorem sumChars_map_take (g : List (List Nat)) (j : Nat) :
    sumChars ((g.map leafNodeKey).take j) = numCharsIn ((g.take j).flatten) := by
  rw [← List.map_take, sumChars_map_leafNodeKey]

theorem sumNewlines_map_take (g : List (List Nat)) (j : Nat) :
    sumNewlines ((g.map leafNodeKey).take j) = numNewlinesIn ((g.take j).flatten) := by
  rw [← List.map_take, sumNewlines_map_leafNodeKey]

/-- Locating within leaf node `j` of a group: the suffix starting in node `j`
plus the later nodes equals the suffix of the flattened group at the
corresponding global offset. -/
theorem leafGroupWalk (g : List (List Nat)) :
    ∀ j adj, j < g.length → adj < numCharsIn (g.getD j []) →
      (g.getD j []).drop (byteOffSpec (g.getD j []) adj) ++ (g.drop (j + 1)).flatten
        = g.flatten.drop (byteOffSpec g.flatten (numCharsIn (g.take j).flatten + adj)) := by
  induction g with
  | nil => intro j adj hj; simp at hj
  | cons x rest ih =>
    intro j adj hj hadj
    match j with
    | 0 =>
      simp only [List.getD_cons_zero] at hadj ⊢
      rw [List.flatten_cons, List.take_zero, List.flatten_nil, numCharsIn_nil,
        byteOffSpec_append]
      simp only [Nat.zero_add]
      rw [if_pos hadj, List.drop_append_of_le_length (byteOffSpec_le_length x adj)]
      simp
    | j + 1 =>
      simp only [List.getD_cons_succ] at hadj ⊢
      rw [List.flatten_cons, List.take_succ_cons, List.flatten_cons,
        numCharsIn_append, byteOffSpec_append]
      rw [if_neg (by omega)]
      have harg : numCharsIn x + numCharsIn (rest.take j).flatten + adj - numCharsIn x
          = numCharsIn (rest.take j).flatten + adj := by omega
      rw [harg, List.drop_append, ← ih j adj (by simpa using hj) hadj,
        List.drop_succ_cons]

/-- The newline analogue of `leafGroupWalk`. -/
theorem leafGroupWalkNewline (g : List (List Nat)) :
    ∀ j adj, j < g.length → adj < numNewlinesIn (g.getD j []) →
      (g.getD j []).drop (newlineOffSpec (g.getD j []) adj) ++ (g.drop (j + 1)).flatten
        = g.flatten.drop
            (newlineOffSpec g.flatten (numNewlinesIn (g.take j).flatten + adj)) := by
  induction g with
  | nil => intro j adj hj; simp at hj
  | cons x rest ih =>
    intro j adj hj hadj
    match j with
    | 0 =>
      simp only [List.getD_cons_zero] at hadj ⊢
      rw [List.flatten_cons, List.take_zero, List.flatten_nil, numNewlinesIn_nil,
        newlineOffSpec_append]
      simp only [Nat.zero_add]
      rw [if_pos hadj, List.drop_append_of_le_length (newlineOffSpec_le_length x adj)]
      simp
    | j + 1 =>
      simp only [List.getD_cons_succ] at hadj ⊢
      rw [List.flatten_cons, List.take_succ_cons, List.flatten_cons,
        numNewlinesIn_append, newlineOffSpec_append]
      rw [if_neg (by omega)]
      have harg : numNewlinesIn x + numNewlinesIn (rest.take j).flatten + adj - numNewlinesIn x
          = numNewlinesIn (rest.take j).flatten + adj := by omega
      rw [harg, List.drop_append, ← ih j adj (by simpa using hj) hadj,
        List.drop_succ_cons]

/-! ## Cursor placement -/

theorem leafCursor_found (groups : LeafGroups) (gIdx j : Nat) (off : Nat)
    (hg : gIdx < groups.length)
    (hj : j < (groups.getD gIdx []).length)
    (hoff : off ≤ ((groups.getD gIdx []).getD j []).length) :
    CursorOK groups ⟨gIdx, j, off⟩ := by
  intro _
  exact ⟨hj, hoff⟩

theorem leafCursor_remaining (groups : LeafGroups) (gIdx j adj : Nat)
    (hg : gIdx < groups.length)
    (hj : j < (groups.getD gIdx []).length)
    (hadj : adj < numCharsIn ((groups.getD gIdx []).getD j [])) :
    cursorRemaining groups
        ⟨gIdx, j, byteOffsetForPosition ((groups.getD gIdx []).getD j []) adj⟩
      = (spanBytes groups gIdx (gIdx + 1)).drop
          (byteOffSpec (spanBytes groups gIdx (gIdx + 1))
            (numCharsIn ((groups.getD gIdx []).take j).flatten + adj))
          ++ tailBytes groups (gIdx + 1) := by
  rw [cursorRemaining, if_pos hg, byteOffsetForPosition_spec, spanBytes_single groups gIdx hg]
  rw [leafGroupWalk (groups.getD gIdx []) j adj hj hadj]

theorem leafCursor_remaining_clamp (groups : LeafGroups) (gIdx adj : Nat)
    (hg : gIdx < groups.length)
    (hne : (groups.getD gIdx []) ≠ [])
    (hadj : numCharsIn ((groups.getD gIdx []).getD ((groups.getD gIdx []).length - 1) [])
      ≤ adj) :
    cursorRemaining groups
        ⟨gIdx, (groups.getD gIdx []).length - 1,
          byteOffsetForPosition
            ((groups.getD gIdx []).getD ((groups.getD gIdx []).length - 1) []) adj⟩
      = tailBytes groups (gIdx + 1) := by
  rw [cursorRemaining, if_pos hg, byteOffsetForPosition_spec,
    byteOffSpec_ge _ _ hadj]
  have hlen : (groups.getD gIdx []).length - 1 + 1 = (groups.getD gIdx []).length := by
    have : (groups.getD gIdx []).length ≠ 0 := by
      intro hz
      exact hne (List.length_eq_zero.mp hz)
    omega
  rw [List.drop_length, hlen, List.drop_length]
  simp

/-! The central cursor-placement theorem: over a well-formed subtree spanning
leaf groups `lo ≤ i < hi`, `cursorAtPosition` places the cursor so that the
bytes remaining after it are exactly the span's bytes from the requested
character position on (the whole remaining document once the tail groups are
appended); an out-of-range position lands at the end of the span. -/
mutual
theorem cursorAtPosNode_spec (groups : LeafGroups) :
    ∀ (n : InnerNode) (lo hi : Nat), NodeWF groups n lo hi → ∀ (p : Nat),
      CursorOK groups (cursorAtPosNode groups n p) ∧
      cursorRemaining groups (cursorAtPosNode groups n p)
        = (spanBytes groups lo hi).drop (byteOffSpec (spanBytes groups lo hi) p)
            ++ tailBytes groups hi
  | .leafParent keys gIdx, lo, hi, h, p => by
    rw [NodeWF] at h
    obtain ⟨hlo, hhi, hg, hkeys, hne⟩ := h
    subst hkeys
    rw [hlo, hhi]
    have hgne : (groups.getD gIdx []) ≠ [] := by
      intro h0
      rw [h0] at hne
      exact hne rfl
    simp only [cursorAtPosNode, locatePosition, leafGroupCursorAtPosition]
    by_cases hp : p < sumChars ((groups.getD gIdx []).map leafNodeKey)
    · obtain ⟨j, hj, heq, hle, hlt⟩ :=
        locatePositionLoop_found ((groups.getD gIdx []).map leafNodeKey) p 0 0
          (Nat.zero_le _) (by simpa using hp)
      rw [heq]
      dsimp only
      simp only [Nat.zero_add, Nat.sub_zero] at *
      have hjg : j < (groups.getD gIdx []).length := by
        simpa using hj
      have hadj : p - sumChars (((groups.getD gIdx []).map leafNodeKey).take j)
          < numCharsIn ((groups.getD gIdx []).getD j []) := by
        have hs := sumChars_take_succ ((groups.getD gIdx []).map leafNodeKey) j hj
        rw [getD_map_leafNodeKey _ j hjg, leafNodeKey_eq] at hs
        have hkc : (keyOfBytes ((groups.getD gIdx []).getD j [])).numChars
            = numCharsIn ((groups.getD gIdx []).getD j []) := rfl
        rw [hkc] at hs
        omega
      refine ⟨leafCursor_found groups gIdx j _ hg hjg ?_, ?_⟩
      · rw [byteOffsetForPosition_spec]
        exact byteOffSpec_le_length _ _
      · rw [leafCursor_remaining groups gIdx j _ hg hjg hadj]
        have hP : numCharsIn (((groups.getD gIdx []).take j).flatten)
              + (p - sumChars (((groups.getD gIdx []).map leafNodeKey).take j)) = p := by
          rw [← sumChars_map_take]
          omega
        rw [hP]
    · push_neg at hp
      rw [locatePositionLoop_clamp ((groups.getD gIdx []).map leafNodeKey) p 0 0
        hne (Nat.zero_le _) (by omega)]
      dsimp only
      simp only [Nat.zero_add, List.length_map]
      have hgpos : 0 < (groups.getD gIdx []).length := List.length_pos.mpr hgne
      have hlast : (groups.getD gIdx []).length - 1 < (groups.getD gIdx []).length := by
        omega
      have hadj : numCharsIn
            ((groups.getD gIdx []).getD ((groups.getD gIdx []).length - 1) [])
          ≤ sumChars ((groups.getD gIdx []).map leafNodeKey) := by
        have hs := sumChars_take_succ ((groups.getD gIdx []).map leafNodeKey)
          ((groups.getD gIdx []).length - 1) (by simpa using hlast)
        rw [getD_map_leafNodeKey _ _ hlast, leafNodeKey_eq] at hs
        have hkc : (keyOfBytes
              ((groups.getD gIdx []).getD ((groups.getD gIdx []).length - 1) [])).numChars
            = numCharsIn
              ((groups.getD gIdx []).getD ((groups.getD gIdx []).length - 1) []) := rfl
        rw [hkc] at hs
        have hfull : ((groups.getD gIdx []).map leafNodeKey).take
              ((groups.getD gIdx []).length - 1 + 1)
            = (groups.getD gIdx []).map leafNodeKey := by
          apply List.take_of_length_le
          simp
          omega
        rw [hfull] at hs
        omega
      refine ⟨leafCursor_found groups gIdx _ _ hg hlast ?_, ?_⟩
      · rw [byteOffsetForPosition_spec]
        exact byteOffSpec_le_length _ _
      · rw [leafCursor_remaining_clamp groups gIdx _ hg hgne hadj,
          spanBytes_single groups gIdx hg, byteOffSpec_ge _ _ ?_, List.drop_length,
          List.nil_append]
        rw [← sumChars_map_leafNodeKey]
        exact hp
  | .innerParent keys children, lo, hi, h, p => by
    rw [NodeWF] at h
    obtain ⟨hcne, hcw⟩ := h
    have hkl := childrenWF_keys_length groups children keys lo hi hcw
    have hsum := (childrenWF_sums groups children keys lo hi hcw).1
    simp only [cursorAtPosNode, locatePosition]
    by_cases hp : p < sumChars keys
    · obtain ⟨j, hj, heq, hle, hlt⟩ :=
        locatePositionLoop_found keys p 0 0 (Nat.zero_le _) (by simpa using hp)
      rw [heq]
      dsimp only
      simp only [Nat.zero_add, Nat.sub_zero] at *
      have hadj : p - sumChars (keys.take j) < (keys.getD j ⟨0, 0⟩).numChars := by
        have := sumChars_take_succ keys j hj
        omega
      have hjc : j < children.length := by omega
      have hspec := cursorAtPosChild_spec groups children keys lo hi hcw j hjc
        (p - sumChars (keys.take j)) (Or.inl hadj)
      refine ⟨hspec.1, ?_⟩
      rw [hspec.2]
      have hP : sumChars (keys.take j) + (p - sumChars (keys.take j)) = p := by omega
      rw [hP]
    · push_neg at hp
      have hkne : keys ≠ [] := by
        intro h0
        apply hcne
        rw [h0] at hkl
        have : children.length = 0 := by simpa using hkl.symm
        exact List.length_eq_zero.mp this
      have hkpos : 0 < keys.length := List.length_pos.mpr hkne
      rw [locatePositionLoop_clamp keys p 0 0 hkne (Nat.zero_le _) (by omega)]
      dsimp only
      simp only [Nat.zero_add]
      have hjc : keys.length - 1 < children.length := by omega
      have hspec := cursorAtPosChild_spec groups children keys lo hi hcw
        (keys.length - 1) hjc (sumChars keys)
        (Or.inr ⟨by omega, by omega⟩)
      refine ⟨hspec.1, ?_⟩
      rw [hspec.2, byteOffSpec_ge _ _ (by omega), byteOffSpec_ge _ _ (by omega)]
theorem cursorAtPosChild_spec (groups : LeafGroups) :
    ∀ (ns : List InnerNode) (ks : List IndexKey) (lo hi : Nat),
      ChildrenWF groups ns ks lo hi → ∀ (j : Nat), j < ns.length →
      ∀ (adj : Nat), (adj < (ks.getD j ⟨0, 0⟩).numChars ∨
        (j = ns.length - 1 ∧ sumChars ks ≤ sumChars (ks.take j) + adj)) →
      CursorOK groups (cursorAtPosChild groups ns j adj) ∧
      cursorRemaining groups (cursorAtPosChild groups ns j adj)
        = (spanBytes groups lo hi).drop
            (byteOffSpec (spanBytes groups lo hi) (sumChars (ks.take j) + adj))
            ++ tailBytes groups hi
  | [], ks, lo, hi, h, j, hj, adj, hcase => by simp at hj
  | child :: rest, ks, lo, hi, h, 0, hj, adj, hcase => by
    rw [ChildrenWF] at h
    obtain ⟨mid, hn, ks', hks, hrest⟩ := h
    subst hks
    simp only [cursorAtPosChild]
    have hb1 := nodeWF_bounds groups child lo mid hn
    have hb2 := childrenWF_bounds groups rest ks' mid hi hrest
    have hspec := cursorAtPosNode_spec groups child lo mid hn adj
    refine ⟨hspec.1, ?_⟩
    rw [hspec.2]
    simp only [List.take_zero, show sumChars ([] : List IndexKey) = 0 from rfl,
      Nat.zero_add]
    rcases hcase with hc | ⟨hc1, hc2⟩
    · have hadj : adj < numCharsIn (spanBytes groups lo mid) := by
        simpa [keyOfBytes] using hc
      rw [← spanBytes_concat groups lo mid hi (by omega) hb2.1,
        tailBytes_decomp groups mid hi hb2.1, byteOffSpec_append, if_pos hadj,
        List.drop_append_of_le_length (byteOffSpec_le_length _ _), List.append_assoc]
    · have hre : rest = [] := by
        have hl : (child :: rest).length - 1 = 0 := hc1.symm
        simp only [List.length_cons] at hl
        exact List.length_eq_zero.mp (by omega)
      subst hre
      rw [ChildrenWF] at hrest
      obtain ⟨hks0, hmh⟩ := hrest
      subst hmh
      rfl
  | child :: rest, ks, lo, hi, h, j + 1, hj, adj, hcase => by
    rw [ChildrenWF] at h
    obtain ⟨mid, hn, ks', hks, hrest⟩ := h
    subst hks
    simp only [cursorAtPosChild]
    have hj' : j < rest.length := by simpa using hj
    have hb1 := nodeWF_bounds groups child lo mid hn
    have hb2 := childrenWF_bounds groups rest ks' mid hi hrest
    have hcase' : adj < (ks'.getD j ⟨0, 0⟩).numChars ∨
        (j = rest.length - 1 ∧ sumChars ks' ≤ sumChars (ks'.take j) + adj) := by
      rcases hcase with hc | ⟨hc1, hc2⟩
      · left
        simpa using hc
      · right
        refine ⟨by simp only [List.length_cons] at hc1; omega, ?_⟩
        rw [List.take_succ_cons, sumChars_cons, sumChars_cons] at hc2
        omega
    have hspec := cursorAtPosChild_spec groups rest ks' mid hi hrest j hj' adj hcase'
    refine ⟨hspec.1, ?_⟩
    rw [hspec.2, List.take_succ_cons, sumChars_cons]
    have hk0 : (keyOfBytes (spanBytes groups lo mid)).numChars
        = numCharsIn (spanBytes groups lo mid) := rfl
    rw [hk0, ← spanBytes_concat groups lo mid hi (by omega) hb2.1, byteOffSpec_append,
      if_neg (by omega)]
    have harg : numCharsIn (spanBytes groups lo mid) + sumChars (ks'.take j) + adj
          - numCharsIn (spanBytes groups lo mid)
        = sumChars (ks'.take j) + adj := by omega
    rw [harg, List.drop_append]
end

theorem sumNewlines_append (a b : List IndexKey) :
    sumNewlines (a ++ b) = sumNewlines a + sumNewlines b := by
  simp [sumNewlines]

theorem sumNewlines_take_le (keys : List IndexKey) (j : Nat) :
    sumNewlines (keys.take j) ≤ sumNewlines keys := by
  conv_rhs => rw [← List.take_append_drop j keys]
  rw [sumNewlines_append]
  omega

theorem leafCursorNl_remaining (groups : LeafGroups) (gIdx j adj : Nat)
    (hg : gIdx < groups.length)
    (hj : j < (groups.getD gIdx []).length)
    (hadj : adj < numNewlinesIn ((groups.getD gIdx []).getD j [])) :
    cursorRemaining groups
        ⟨gIdx, j, byteOffsetAfterNewline ((groups.getD gIdx []).getD j []) adj⟩
      = (spanBytes groups gIdx (gIdx + 1)).drop
          (newlineOffSpec (spanBytes groups gIdx (gIdx + 1))
            (numNewlinesIn ((groups.getD gIdx []).take j).flatten + adj))
          ++ tailBytes groups (gIdx + 1) := by
  rw [cursorRemaining, if_pos hg, byteOffsetAfterNewline_spec, spanBytes_single groups gIdx hg]
  rw [leafGroupWalkNewline (groups.getD gIdx []) j adj hj hadj]

theorem leafCursorNl_remaining_clamp (groups : LeafGroups) (gIdx adj : Nat)
    (hg : gIdx < groups.length)
    (hne : (groups.getD gIdx []) ≠ [])
    (hadj : numNewlinesIn ((groups.getD gIdx []).getD ((groups.getD gIdx []).length - 1) [])
      ≤ adj) :
    cursorRemaining groups
        ⟨gIdx, (groups.getD gIdx []).length - 1,
          byteOffsetAfterNewline
            ((groups.getD gIdx []).getD ((groups.getD gIdx []).length - 1) []) adj⟩
      = tailBytes groups (gIdx + 1) := by
  rw [cursorRemaining, if_pos hg, byteOffsetAfterNewline_spec,
    newlineOffSpec_ge _ _ hadj]
  have hlen : (groups.getD gIdx []).length - 1 + 1 = (groups.getD gIdx []).length := by
    have : (groups.getD gIdx []).length ≠ 0 := by
      intro hz
      exact hne (List.length_eq_zero.mp hz)
    omega
  rw [List.drop_length, hlen, List.drop_length]
  simp

/-! The cursor-after-newline theorem, mirroring `cursorAtPosNode_spec`: the
bytes remaining after the cursor are the span's bytes from just past the
requested newline on; a newline index at or past the span's newline count
lands at the end of the span. -/
mutual
theorem cursorAfterNewlineNode_spec (groups : LeafGroups) :
    ∀ (n : InnerNode) (lo hi : Nat), NodeWF groups n lo hi → ∀ (np : Nat),
      CursorOK groups (cursorAfterNewlineNode groups n np) ∧
      cursorRemaining groups (cursorAfterNewlineNode groups n np)
        = (spanBytes groups lo hi).drop (newlineOffSpec (spanBytes groups lo hi) np)
            ++ tailBytes groups hi
  | .leafParent keys gIdx, lo, hi, h, np => by
    rw [NodeWF] at h
    obtain ⟨hlo, hhi, hg, hkeys, hne⟩ := h
    subst hkeys
    rw [hlo, hhi]
    have hgne : (groups.getD gIdx []) ≠ [] := by
      intro h0
      rw [h0] at hne
      exact hne rfl
    simp only [cursorAfterNewlineNode, locateNewline, leafGroupCursorAfterNewline]
    by_cases hp : np < sumNewlines ((groups.getD gIdx []).map leafNodeKey)
    · obtain ⟨j, hj, heq, hle, hlt⟩ :=
        locateNewlineLoop_found ((groups.getD gIdx []).map leafNodeKey) np 0 0
          (Nat.zero_le _) (by simpa using hp)
      rw [heq]
      dsimp only
      simp only [Nat.zero_add, Nat.sub_zero] at *
      have hjg : j < (groups.getD gIdx []).length := by
        simpa using hj
      have hadj : np - sumNewlines (((groups.getD gIdx []).map leafNodeKey).take j)
          < numNewlinesIn ((groups.getD gIdx []).getD j []) := by
        have hs := sumNewlines_take_succ ((groups.getD gIdx []).map leafNodeKey) j hj
        rw [getD_map_leafNodeKey _ j hjg, leafNodeKey_eq] at hs
        have hkc : (keyOfBytes ((groups.getD gIdx []).getD j [])).numNewlines
            = numNewlinesIn ((groups.getD gIdx []).getD j []) := rfl
        rw [hkc] at hs
        omega
      refine ⟨leafCursor_found groups gIdx j _ hg hjg ?_, ?_⟩
      · rw [byteOffsetAfterNewline_spec]
        exact newlineOffSpec_le_length _ _
      · rw [leafCursorNl_remaining groups gIdx j _ hg hjg hadj]
        have hP : numNewlinesIn (((groups.getD gIdx []).take j).flatten)
              + (np - sumNewlines (((groups.getD gIdx []).map leafNodeKey).take j)) = np := by
          rw [← sumNewlines_map_take]
          omega
        rw [hP]
    · push_neg at hp
      rw [locateNewlineLoop_clamp ((groups.getD gIdx []).map leafNodeKey) np 0 0
        hne (Nat.zero_le _) (by omega)]
      dsimp only
      simp only [Nat.zero_add, Nat.sub_zero, List.length_map]
      have hgpos : 0 < (groups.getD gIdx []).length := List.length_pos.mpr hgne
      have hlast : (groups.getD gIdx []).length - 1 < (groups.getD gIdx []).length := by
        omega
      have hadj : numNewlinesIn
            ((groups.getD gIdx []).getD ((groups.getD gIdx []).length - 1) [])
          ≤ np - sumNewlines (((groups.getD gIdx []).map leafNodeKey).take
              ((groups.getD gIdx []).length - 1)) := by
        have hs := sumNewlines_take_succ ((groups.getD gIdx []).map leafNodeKey)
          ((groups.getD gIdx []).length - 1) (by simpa using hlast)
        rw [getD_map_leafNodeKey _ _ hlast, leafNodeKey_eq] at hs
        have hkc : (keyOfBytes
              ((groups.getD gIdx []).getD ((groups.getD gIdx []).length - 1) [])).numNewlines
            = numNewlinesIn
              ((groups.getD gIdx []).getD ((groups.getD gIdx []).length - 1) []) := rfl
        rw [hkc] at hs
        have hfull : ((groups.getD gIdx []).map leafNodeKey).take
              ((groups.getD gIdx []).length - 1 + 1)
            = (groups.getD gIdx []).map leafNodeKey := by
          apply List.take_of_length_le
          simp
          omega
        rw [hfull] at hs
        omega
      refine ⟨leafCursor_found groups gIdx _ _ hg hlast ?_, ?_⟩
      · rw [byteOffsetAfterNewline_spec]
        exact newlineOffSpec_le_length _ _
      · rw [leafCursorNl_remaining_clamp groups gIdx _ hg hgne hadj,
          spanBytes_single groups gIdx hg, newlineOffSpec_ge _ _ ?_, List.drop_length,
          List.nil_append]
        rw [← sumNewlines_map_leafNodeKey]
        exact hp
  | .innerParent keys children, lo, hi, h, np => by
    rw [NodeWF] at h
    obtain ⟨hcne, hcw⟩ := h
    have hkl := childrenWF_keys_length groups children keys lo hi hcw
    have hsum := (childrenWF_sums groups children keys lo hi hcw).2
    simp only [cursorAfterNewlineNode, locateNewline]
    by_cases hp : np < sumNewlines keys
    · obtain ⟨j, hj, heq, hle, hlt⟩ :=
        locateNewlineLoop_found keys np 0 0 (Nat.zero_le _) (by simpa using hp)
      rw [heq]
      dsimp only
      simp only [Nat.zero_add, Nat.sub_zero] at *
      have hadj : np - sumNewlines (keys.take j) < (keys.getD j ⟨0, 0⟩).numNewlines := by
        have := sumNewlines_take_succ keys j hj
        omega
      have hjc : j < children.length := by omega
      have hspec := cursorAfterNewlineChild_spec groups children keys lo hi hcw j hjc
        (np - sumNewlines (keys.take j)) (Or.inl hadj)
      refine ⟨hspec.1, ?_⟩
      rw [hspec.2]
      have hP : sumNewlines (keys.take j) + (np - sumNewlines (keys.take j)) = np := by
        omega
      rw [hP]
    · push_neg at hp
      have hkne : keys ≠ [] := by
        intro h0
        apply hcne
        rw [h0] at hkl
        have : children.length = 0 := by simpa using hkl.symm
        exact List.length_eq_zero.mp this
      have hkpos : 0 < keys.length := List.length_pos.mpr hkne
      rw [locateNewlineLoop_clamp keys np 0 0 hkne (Nat.zero_le _) (by omega)]
      dsimp only
      simp only [Nat.zero_add, Nat.sub_zero]
      have hjc : keys.length - 1 < children.length := by omega
      have htl := sumNewlines_take_le keys (keys.length - 1)
      have hspec := cursorAfterNewlineChild_spec groups children keys lo hi hcw
        (keys.length - 1) hjc (np - sumNewlines (keys.take (keys.length - 1)))
        (Or.inr ⟨by omega, by omega⟩)
      refine ⟨hspec.1, ?_⟩
      rw [hspec.2]
      have hP : sumNewlines (keys.take (keys.length - 1))
            + (np - sumNewlines (keys.take (keys.length - 1))) = np := by omega
      rw [hP]
theorem cursorAfterNewlineChild_spec (groups : LeafGroups) :
    ∀ (ns : List InnerNode) (ks : List IndexKey) (lo hi : Nat),
      ChildrenWF groups ns ks lo hi → ∀ (j : Nat), j < ns.length →
      ∀ (adj : Nat), (adj < (ks.getD j ⟨0, 0⟩).numNewlines ∨
        (j = ns.length - 1 ∧ sumNewlines ks ≤ sumNewlines (ks.take j) + adj)) →
      CursorOK groups (cursorAfterNewlineChild groups ns j adj) ∧
      cursorRemaining groups (cursorAfterNewlineChild groups ns j adj)
        = (spanBytes groups lo hi).drop
            (newlineOffSpec (spanBytes groups lo hi) (sumNewlines (ks.take j) + adj))
            ++ tailBytes groups hi
  | [], ks, lo, hi, h, j, hj, adj, hcase => by simp at hj
  | child :: rest, ks, lo, hi, h, 0, hj, adj, hcase => by
    rw [ChildrenWF] at h
    obtain ⟨mid, hn, ks', hks, hrest⟩ := h
    subst hks
    simp only [cursorAfterNewlineChild]
    have hb1 := nodeWF_bounds groups child lo mid hn
    have hb2 := childrenWF_bounds groups rest ks' mid hi hrest
    have hspec := cursorAfterNewlineNode_spec groups child lo mid hn adj
    refine ⟨hspec.1, ?_⟩
    rw [hspec.2]
    simp only [List.take_zero, show sumNewlines ([] : List IndexKey) = 0 from rfl,
      Nat.zero_add]
    rcases hcase with hc | ⟨hc1, hc2⟩
    · have hadj : adj < numNewlinesIn (spanBytes groups lo mid) := by
        simpa [keyOfBytes] using hc
      rw [← spanBytes_concat groups lo mid hi (by omega) hb2.1,
        tailBytes_decomp groups mid hi hb2.1, newlineOffSpec_append, if_pos hadj,
        List.drop_append_of_le_length (newlineOffSpec_le_length _ _), List.append_assoc]
    · have hre : rest = [] := by
        have hl : (child :: rest).length - 1 = 0 := hc1.symm
        simp only [List.length_cons] at hl
        exact List.length_eq_zero.mp (by omega)
      subst hre
      rw [ChildrenWF] at hrest
      obtain ⟨hks0, hmh⟩ := hrest
      subst hmh
      rfl
  | child :: rest, ks, lo, hi, h, j + 1, hj, adj, hcase => by
    rw [ChildrenWF] at h
    obtain ⟨mid, hn, ks', hks, hrest⟩ := h
    subst hks
    simp only [cursorAfterNewlineChild]
    have hj' : j < rest.length := by simpa using hj
    have hb1 := nodeWF_bounds groups child lo mid hn
    have hb2 := childrenWF_bounds groups rest ks' mid hi hrest
    have hcase' : adj < (ks'.getD j ⟨0, 0⟩).numNewlines ∨
        (j = rest.length - 1 ∧ sumNewlines ks' ≤ sumNewlines (ks'.take j) + adj) := by
      rcases hcase with hc | ⟨hc1, hc2⟩
      · left
        simpa using hc
      · right
        refine ⟨by simp only [List.length_cons] at hc1; omega, ?_⟩
        rw [List.take_succ_cons, sumNewlines_cons, sumNewlines_cons] at hc2
        omega
    have hspec := cursorAfterNewlineChild_spec groups rest ks' mid hi hrest j hj' adj hcase'
    refine ⟨hspec.1, ?_⟩
    rw [hspec.2, List.take_succ_cons, sumNewlines_cons]
    have hk0 : (keyOfBytes (spanBytes groups lo mid)).numNewlines
        = numNewlinesIn (spanBytes groups lo mid) := rfl
    rw [hk0, ← spanBytes_concat groups lo mid hi (by omega) hb2.1, newlineOffSpec_append,
      if_neg (by omega)]
    have harg : numNewlinesIn (spanBytes groups lo mid) + sumNewlines (ks'.take j) + adj
          - numNewlinesIn (spanBytes groups lo mid)
        = sumNewlines (ks'.take j) + adj := by omega
    rw [harg, List.drop_append]
end

/-! ## Read correctness -/

/-- One copy step of the read loop: splitting the remaining stream at the
copied chunk relates the pre- and post-step buffer, EOF condition and
remainder. -/
theorem readChunk (acc copied rem' : List Nat) (blen n : Nat)
    (hlen : copied.length = n) (hle : n ≤ blen - acc.length) :
    acc ++ (copied ++ rem').take (blen - acc.length)
        = (acc ++ copied) ++ rem'.take (blen - (acc ++ copied).length) ∧
      (acc.length + (copied ++ rem').length < blen ↔
        (acc ++ copied).length + rem'.length < blen) ∧
      (copied ++ rem').drop (blen - acc.length)
        = rem'.drop (blen - (acc ++ copied).length) := by
  have hsplit : blen - acc.length = copied.length + (blen - (acc ++ copied).length) := by
    simp only [List.length_append]
    omega
  refine ⟨?_, ?_, ?_⟩
  · rw [hsplit, List.take_append, List.append_assoc]
  · simp only [List.length_append]
    omega
  · rw [hsplit, List.drop_append]

/-- Correctness of the `Cursor.Read` loop over a nonempty leaf chain: it
appends to the buffer exactly the next `blen - acc.length` bytes of the
remaining stream (fewer if the stream ends first), reports `io.EOF` exactly
when the stream ran out before the buffer filled, and leaves a valid cursor
whose remaining stream is the unread suffix. -/
theorem readLoop_spec (groups : LeafGroups) (hne : GroupsNonempty groups)
    (blen : Nat) :
    ∀ (acc : List Nat) (c : Cursor), CursorOK groups c →
      (readLoop groups blen acc c).1
          = acc ++ (cursorRemaining groups c).take (blen - acc.length) ∧
        ((readLoop groups blen acc c).2.1 = true ↔
          acc.length + (cursorRemaining groups c).length < blen) ∧
        CursorOK groups (readLoop groups blen acc c).2.2 ∧
        cursorRemaining groups (readLoop groups blen acc c).2.2
          = (cursorRemaining groups c).drop (blen - acc.length) := by
  intro acc c
  induction acc, c using readLoop.induct groups blen with
  | case1 acc c hfull =>
    intro hCK
    rw [readLoop, if_pos hfull]
    have hz : blen - acc.length = 0 := by omega
    rw [hz]
    simp only [List.take_zero, List.append_nil, List.drop_zero]
    refine ⟨by trivial, ?_, hCK, by trivial⟩
    simp only [Bool.false_eq_true, false_iff]
    omega
  | case2 acc c hfull hg =>
    intro hCK
    rw [readLoop, if_neg hfull, dif_pos hg]
    rw [cursorRemaining, if_neg (by omega)]
    simp only [List.take_nil, List.append_nil, List.length_nil, List.drop_nil]
    refine ⟨by trivial, ?_, hCK, by trivial⟩
    simp only [true_iff]
    omega
  | case3 acc c hfull hg hoff ih =>
    intro hCK
    have hglt : c.groupIdx < groups.length := by omega
    obtain ⟨hnode0, hoff0⟩ := hCK hglt
    rw [readLoop, if_neg hfull, dif_neg hg, dif_pos hoff]
    have hCK' : CursorOK groups
        ⟨c.groupIdx, c.nodeIdx,
          c.textByteOffset + min (blen - acc.length)
            (((groups.getD c.groupIdx []).getD c.nodeIdx []).length
              - c.textByteOffset)⟩ := by
      intro _
      dsimp only
      exact ⟨hnode0, by omega⟩
    obtain ⟨ih1, ih2, ih3, ih4⟩ := ih hCK'
    have hclen : ((((groups.getD c.groupIdx []).getD c.nodeIdx []).drop
          c.textByteOffset).take
        (min (blen - acc.length)
          (((groups.getD c.groupIdx []).getD c.nodeIdx []).length
            - c.textByteOffset))).length
        = min (blen - acc.length)
          (((groups.getD c.groupIdx []).getD c.nodeIdx []).length
            - c.textByteOffset) := by
      simp only [List.length_take, List.length_drop]
      omega
    have hrem : cursorRemaining groups c
        = ((((groups.getD c.groupIdx []).getD c.nodeIdx []).drop
              c.textByteOffset).take
            (min (blen - acc.length)
              (((groups.getD c.groupIdx []).getD c.nodeIdx []).length
                - c.textByteOffset)))
          ++ cursorRemaining groups
            ⟨c.groupIdx, c.nodeIdx,
              c.textByteOffset + min (blen - acc.length)
                (((groups.getD c.groupIdx []).getD c.nodeIdx []).length
                  - c.textByteOffset)⟩ := by
      rw [cursorRemaining, cursorRemaining, if_pos hglt, if_pos hglt]
      dsimp only
      have hdd : (((groups.getD c.groupIdx []).getD c.nodeIdx []).drop
            c.textByteOffset).drop
          (min (blen - acc.length)
            (((groups.getD c.groupIdx []).getD c.nodeIdx []).length
              - c.textByteOffset))
          = ((groups.getD c.groupIdx []).getD c.nodeIdx []).drop
            (c.textByteOffset + min (blen - acc.length)
              (((groups.getD c.groupIdx []).getD c.nodeIdx []).length
                - c.textByteOffset)) := by
        rw [List.drop_drop]
      conv_lhs =>
        rw [← List.take_append_drop
          (min (blen - acc.length)
            (((groups.getD c.groupIdx []).getD c.nodeIdx []).length
              - c.textByteOffset))
          (((groups.getD c.groupIdx []).getD c.nodeIdx []).drop c.textByteOffset)]
      rw [hdd]
      simp only [List.append_assoc]
    obtain ⟨hc1, hc2, hc3⟩ := readChunk acc _
      (cursorRemaining groups
        ⟨c.groupIdx, c.nodeIdx,
          c.textByteOffset + min (blen - acc.length)
            (((groups.getD c.groupIdx []).getD c.nodeIdx []).length
              - c.textByteOffset)⟩)
      blen _ hclen (by omega)
    rw [hrem]
    refine ⟨?_, ?_, ih3, ?_⟩
    · rw [ih1]
      exact hc1.symm
    · rw [ih2]
      exact hc2.symm
    · rw [ih4]
      exact hc3.symm
  | case4 acc c hfull hg hoff hnode ih =>
    intro hCK
    have hglt : c.groupIdx < groups.length := by omega
    obtain ⟨hnode0, hoff0⟩ := hCK hglt
    rw [readLoop, if_neg hfull, dif_neg hg, dif_neg hoff, dif_pos hnode]
    have hn : min (blen - acc.length)
          (((groups.getD c.groupIdx []).getD c.nodeIdx []).length - c.textByteOffset)
        = ((groups.getD c.groupIdx []).getD c.nodeIdx []).length - c.textByteOffset := by
      omega
    have hCK' : CursorOK groups ⟨c.groupIdx, c.nodeIdx + 1, 0⟩ := by
      intro _
      dsimp only
      exact ⟨hnode, by omega⟩
    obtain ⟨ih1, ih2, ih3, ih4⟩ := ih hCK'
    have hcop : (((groups.getD c.groupIdx []).getD c.nodeIdx []).drop
          c.textByteOffset).take
        (min (blen - acc.length)
          (((groups.getD c.groupIdx []).getD c.nodeIdx []).length
            - c.textByteOffset))
        = ((groups.getD c.groupIdx []).getD c.nodeIdx []).drop c.textByteOffset := by
      rw [hn]
      apply List.take_of_length_le
      simp
    have hclen : ((((groups.getD c.groupIdx []).getD c.nodeIdx []).drop
          c.textByteOffset).take
        (min (blen - acc.length)
          (((groups.getD c.groupIdx []).getD c.nodeIdx []).length
            - c.textByteOffset))).length
        = min (blen - acc.length)
          (((groups.getD c.groupIdx []).getD c.nodeIdx []).length
            - c.textByteOffset) := by
      simp only [List.length_take, List.length_drop]
      omega
    have hnext : (groups.getD c.groupIdx []).drop (c.nodeIdx + 1)
        = (groups.getD c.groupIdx []).getD (c.nodeIdx + 1) []
          :: (groups.getD c.groupIdx []).drop (c.nodeIdx + 2) := by
      rw [List.getD_eq_getElem?_getD (groups.getD c.groupIdx []) (c.nodeIdx + 1) [],
        List.getElem?_eq_getElem hnode, Option.getD_some]
      exact List.drop_eq_getElem_cons hnode
    have hrem : cursorRemaining groups c
        = ((((groups.getD c.groupIdx []).getD c.nodeIdx []).drop
              c.textByteOffset).take
            (min (blen - acc.length)
              (((groups.getD c.groupIdx []).getD c.nodeIdx []).length
                - c.textByteOffset)))
          ++ cursorRemaining groups ⟨c.groupIdx, c.nodeIdx + 1, 0⟩ := by
      rw [cursorRemaining, cursorRemaining, if_pos hglt, if_pos hglt]
      dsimp only
      rw [hnext, List.flatten_cons, List.drop_zero, hcop]
      simp only [List.append_assoc]
    obtain ⟨hc1, hc2, hc3⟩ := readChunk acc _
      (cursorRemaining groups ⟨c.groupIdx, c.nodeIdx + 1, 0⟩) blen _ hclen (by omega)
    rw [hrem]
    refine ⟨?_, ?_, ih3, ?_⟩
    · rw [ih1]
      exact hc1.symm
    · rw [ih2]
      exact hc2.symm
    · rw [ih4]
      exact hc3.symm
  | case5 acc c hfull hg hoff hnode ih =>
    intro hCK
    have hglt : c.groupIdx < groups.length := by omega
    obtain ⟨hnode0, hoff0⟩ := hCK hglt
    rw [readLoop, if_neg hfull, dif_neg hg, dif_neg hoff, dif_neg hnode]
    have hn : min (blen - acc.length)
          (((groups.getD c.groupIdx []).getD c.nodeIdx []).length - c.textByteOffset)
        = ((groups.getD c.groupIdx []).getD c.nodeIdx []).length - c.textByteOffset := by
      omega
    have hlastnode : c.nodeIdx + 1 = (groups.getD c.groupIdx []).length := by omega
    have hCK' : CursorOK groups ⟨c.groupIdx + 1, 0, 0⟩ := by
      intro hg2
      have hg2' : c.groupIdx + 1 < groups.length := hg2
      have hmem : groups.getD (c.groupIdx + 1) [] ∈ groups := by
        rw [List.getD_eq_getElem?_getD, List.getElem?_eq_getElem hg2', Option.getD_some]
        exact List.getElem_mem _
      exact ⟨List.length_pos.mpr (hne _ hmem), Nat.zero_le _⟩
    obtain ⟨ih1, ih2, ih3, ih4⟩ := ih hCK'
    have hcop : (((groups.getD c.groupIdx []).getD c.nodeIdx []).drop
          c.textByteOffset).take
        (min (blen - acc.length)
          (((groups.getD c.groupIdx []).getD c.nodeIdx []).length
            - c.textByteOffset))
        = ((groups.getD c.groupIdx []).getD c.nodeIdx []).drop c.textByteOffset := by
      rw [hn]
      apply List.take_of_length_le
      simp
    have hclen : ((((groups.getD c.groupIdx []).getD c.nodeIdx []).drop
          c.textByteOffset).take
        (min (blen - acc.length)
          (((groups.getD c.groupIdx []).getD c.nodeIdx []).length
            - c.textByteOffset))).length
        = min (blen - acc.length)
          (((groups.getD c.groupIdx []).getD c.nodeIdx []).length
            - c.textByteOffset) := by
      simp only [List.length_take, List.length_drop]
      omega
    have hrem : cursorRemaining groups c
        = ((((groups.getD c.groupIdx []).getD c.nodeIdx []).drop
              c.textByteOffset).take
            (min (blen - acc.length)
              (((groups.getD c.groupIdx []).getD c.nodeIdx []).length
                - c.textByteOffset)))
          ++ cursorRemaining groups ⟨c.groupIdx + 1, 0, 0⟩ := by
      rw [cursorRemaining, cursorRemaining, if_pos hglt]
      dsimp only
      rw [hlastnode, List.drop_length, List.flatten_nil, List.append_nil, hcop]
      by_cases hg2 : c.groupIdx + 1 < groups.length
      · have hmem : groups.getD (c.groupIdx + 1) [] ∈ groups := by
          rw [List.getD_eq_getElem?_getD, List.getElem?_eq_getElem hg2, Option.getD_some]
          exact List.getElem_mem _
        have hg2ne := hne _ hmem
        have hflat : (groups.getD (c.groupIdx + 1) []).flatten
            = (groups.getD (c.groupIdx + 1) []).getD 0 []
              ++ ((groups.getD (c.groupIdx + 1) []).drop 1).flatten := by
          cases hl : groups.getD (c.groupIdx + 1) [] with
          | nil => exact absurd hl hg2ne
          | cons x rest => simp
        rw [if_pos hg2, tailBytes_decomp groups (c.groupIdx + 1) (c.groupIdx + 2)
          (by omega), spanBytes_single groups _ hg2, hflat, List.drop_zero]
      · rw [if_neg hg2, tailBytes_past groups _ (by omega), List.append_nil]
    obtain ⟨hc1, hc2, hc3⟩ := readChunk acc _
      (cursorRemaining groups ⟨c.groupIdx + 1, 0, 0⟩) blen _ hclen (by omega)
    rw [hrem]
    refine ⟨?_, ?_, ih3, ?_⟩
    · rw [ih1]
      exact hc1.symm
    · rw [ih2]
      exact hc2.symm
    · rw [ih4]
      exact hc3.symm

/-! ## Character units and alignment -/

theorem byteOffSpec_lt_length (l : List Nat) :
    ∀ p, p < numCharsIn l → byteOffSpec l p < l.length := by
  induction l with
  | nil => intro p h; simp [numCharsIn] at h
  | cons b rest ih =>
    intro p h
    rw [numCharsIn_cons] at h
    rw [byteOffSpec]
    split
    · simp
    · rcases utf8StartByteIndicator_cases b with hb | hb
      · have := ih (p - utf8StartByteIndicator b) (by rw [hb]; omega)
        simp only [List.length_cons]
        omega
      · rename_i hcond
        have hpne : p ≠ 0 := by
          intro h0
          exact hcond ⟨hb, h0⟩
        have := ih (p - utf8StartByteIndicator b) (by rw [hb]; omega)
        simp only [List.length_cons]
        omega

theorem unit_ne_nil (u : List Nat) (h : IsCharUnit u) : u ≠ [] := by
  intro h0
  rw [h0] at h
  exact h

theorem unit_chars (u : List Nat) (h : IsCharUnit u) : numCharsIn u = 1 := by
  match u, h with
  | b :: rest, ⟨hb, hw, hrest⟩ =>
    rw [numCharsIn_cons, hb]
    have : numCharsIn rest = 0 := by
      unfold numCharsIn
      apply List.sum_eq_zero
      intro x hx
      simp only [List.mem_map] at hx
      obtain ⟨y, hy, hxy⟩ := hx
      rw [← hxy]
      exact hrest y hy
    omega

theorem indicator_zero_ne_newline (b : Nat) (h : utf8StartByteIndicator b = 0) :
    b ≠ 10 := by
  intro h0
  rw [h0] at h
  exact absurd h (by decide)

theorem unit_newlines (u : List Nat) (h : IsCharUnit u) :
    numNewlinesIn u = if u.getD 0 0 = 10 then 1 else 0 := by
  match u, h with
  | b :: rest, ⟨hb, hw, hrest⟩ =>
    rw [numNewlinesIn_cons, List.getD_cons_zero]
    have hrz : numNewlinesIn rest = 0 := by
      unfold numNewlinesIn
      rw [List.countP_eq_zero]
      intro x hx
      simp only [decide_eq_true_eq]
      exact indicator_zero_ne_newline x (hrest x hx)
    by_cases hbn : b = 10
    · rw [if_pos hbn]
      omega
    · rw [if_neg hbn]
      omega

theorem aligned_nil : Aligned [] := ⟨[], by simp, rfl⟩

theorem isCharUnit_cons (b : Nat) (rest : List Nat)
    (h1 : utf8StartByteIndicator b = 1) (h2 : utf8CharWidth b = (b :: rest).length)
    (h3 : ∀ x ∈ rest, utf8StartByteIndicator x = 0) : IsCharUnit (b :: rest) :=
  ⟨h1, h2, h3⟩

theorem aligned_of_unit (u : List Nat) (h : IsCharUnit u) : Aligned u :=
  ⟨[u], fun x hx => by rw [List.mem_singleton.mp hx]; exact h, by simp⟩

theorem aligned_cons_unit (u r : List Nat) (hu : IsCharUnit u) (hr : Aligned r) :
    Aligned (u ++ r) := by
  obtain ⟨units, hunits, hflat⟩ := hr
  exact ⟨u :: units, by
    intro x hx
    rcases List.mem_cons.mp hx with h | h
    · rw [h]; exact hu
    · exact hunits x h, by rw [List.flatten_cons, hflat]⟩

theorem aligned_append (a b : List Nat) (ha : Aligned a) (hb : Aligned b) :
    Aligned (a ++ b) := by
  obtain ⟨ua, hua, hfa⟩ := ha
  obtain ⟨ub, hub, hfb⟩ := hb
  refine ⟨ua ++ ub, ?_, ?_⟩
  · intro x hx
    rcases List.mem_append.mp hx with h | h
    · exact hua x h
    · exact hub x h
  · rw [List.flatten_append, hfa, hfb]

theorem aligned_flatten (L : List (List Nat)) (h : ∀ x ∈ L, Aligned x) :
    Aligned L.flatten := by
  induction L with
  | nil => exact aligned_nil
  | cons x rest ih =>
    rw [List.flatten_cons]
    exact aligned_append _ _ (h x (by simp))
      (ih (fun y hy => h y (by simp [hy])))

theorem byteOffSpec_zero_aligned (l : List Nat) (h : Aligned l) :
    byteOffSpec l 0 = 0 := by
  obtain ⟨units, hunits, hflat⟩ := h
  subst hflat
  match units with
  | [] => rfl
  | u :: rest =>
    have hu := hunits u (by simp)
    match u, hu with
    | b :: tail, ⟨hb, _, _⟩ =>
      rw [List.flatten_cons, List.cons_append, byteOffSpec, if_pos ⟨hb, rfl⟩]

/-- Characters in a unit decomposition: one per unit. -/
theorem units_chars (U : List (List Nat)) (hU : ∀ u ∈ U, IsCharUnit u) :
    numCharsIn U.flatten = U.length := by
  induction U with
  | nil => rfl
  | cons u rest ih =>
    rw [List.flatten_cons, numCharsIn_append, unit_chars u (hU u (by simp)),
      ih (fun y hy => hU y (by simp [hy])), List.length_cons]
    omega

/-- Deleting the `adj`-th character unit of an aligned byte sequence: the
deleted range is exactly one unit, so the result stays aligned, loses one
character, and loses a newline exactly when the deleted unit's start byte is
a newline. -/
theorem unitsDelete (U : List (List Nat)) :
    (∀ u ∈ U, IsCharUnit u) → ∀ adj, adj < U.length →
      byteOffSpec U.flatten adj < U.flatten.length ∧
      byteOffSpec U.flatten (adj + 1)
        = byteOffSpec U.flatten adj
          + utf8CharWidth (U.flatten.getD (byteOffSpec U.flatten adj) 0) ∧
      Aligned (U.flatten.take (byteOffSpec U.flatten adj)
        ++ U.flatten.drop (byteOffSpec U.flatten (adj + 1))) ∧
      numCharsIn (U.flatten.take (byteOffSpec U.flatten adj)
        ++ U.flatten.drop (byteOffSpec U.flatten (adj + 1)))
        = numCharsIn U.flatten - 1 ∧
      numNewlinesIn (U.flatten.take (byteOffSpec U.flatten adj)
        ++ U.flatten.drop (byteOffSpec U.flatten (adj + 1)))
        = numNewlinesIn U.flatten
          - (if U.flatten.getD (byteOffSpec U.flatten adj) 0 = 10 then 1 else 0) ∧
      (U.flatten.getD (byteOffSpec U.flatten adj) 0 = 10 →
        1 ≤ numNewlinesIn U.flatten) := by
  induction U with
  | nil => intro _ adj hadj; simp at hadj
  | cons u rest ih =>
    intro hU adj hadj
    have hu := hU u (by simp)
    have hrest : ∀ y ∈ rest, IsCharUnit y := fun y hy => hU y (by simp [hy])
    have hra : Aligned rest.flatten := aligned_flatten rest (fun y hy =>
      aligned_of_unit y (hrest y hy))
    match u, hu with
    | b :: tail, ⟨hb, hw, htail⟩ =>
      match adj with
      | 0 =>
        rw [List.flatten_cons]
        have hoff0 : byteOffSpec ((b :: tail) ++ rest.flatten) 0 = 0 := by
          rw [List.cons_append, byteOffSpec, if_pos ⟨hb, rfl⟩]
        have hchars : numCharsIn ((b :: tail) ++ rest.flatten)
            = 1 + numCharsIn rest.flatten := by
          rw [numCharsIn_append, unit_chars (b :: tail) (isCharUnit_cons b tail hb hw htail)]
        have hoff1 : byteOffSpec ((b :: tail) ++ rest.flatten) 1
            = (b :: tail).length := by
          rw [byteOffSpec_append, if_neg (by rw [unit_chars (b :: tail) (isCharUnit_cons b tail hb hw htail)]; omega),
            unit_chars (b :: tail) (isCharUnit_cons b tail hb hw htail), Nat.sub_self,
            byteOffSpec_zero_aligned _ hra, Nat.add_zero]
        have hget : ((b :: tail) ++ rest.flatten).getD 0 0 = b := rfl
        refine ⟨?_, ?_, ?_, ?_, ?_, ?_⟩
        · rw [hoff0]
          simp
        · rw [hoff0, hoff1, hget, Nat.zero_add, ← hw]
        · rw [hoff0, hoff1, List.take_zero, List.nil_append,
            List.drop_append_of_le_length (le_refl _), List.drop_length,
            List.nil_append]
          exact hra
        · rw [hoff0, hoff1, List.take_zero, List.nil_append,
            List.drop_append_of_le_length (le_refl _), List.drop_length,
            List.nil_append, hchars]
          omega
        · rw [hoff0, hoff1, List.take_zero, List.nil_append,
            List.drop_append_of_le_length (le_refl _), List.drop_length,
            List.nil_append, numNewlinesIn_append, hget,
            unit_newlines (b :: tail) (isCharUnit_cons b tail hb hw htail)]
          simp only [List.getD_cons_zero]
          split <;> omega
        · intro hbn
          rw [hoff0, hget] at hbn
          rw [numNewlinesIn_append, unit_newlines (b :: tail) (isCharUnit_cons b tail hb hw htail),
            List.getD_cons_zero, if_pos hbn]
          omega
      | adj + 1 =>
        have hadj' : adj < rest.length := by simpa using hadj
        obtain ⟨ih1, ih2, ih3, ih4, ih5, ih6⟩ := ih hrest adj hadj'
        rw [List.flatten_cons]
        have huC : numCharsIn (b :: tail) = 1 := unit_chars (b :: tail) (isCharUnit_cons b tail hb hw htail)
        have hoffA : byteOffSpec ((b :: tail) ++ rest.flatten) (adj + 1)
            = (b :: tail).length + byteOffSpec rest.flatten adj := by
          rw [byteOffSpec_append, if_neg (by omega), huC]
          congr 1
        have hoffB : byteOffSpec ((b :: tail) ++ rest.flatten) (adj + 1 + 1)
            = (b :: tail).length + byteOffSpec rest.flatten (adj + 1) := by
          rw [byteOffSpec_append, if_neg (by omega), huC]
          congr 1
        have hget : ((b :: tail) ++ rest.flatten).getD
            ((b :: tail).length + byteOffSpec rest.flatten adj) 0
            = rest.flatten.getD (byteOffSpec rest.flatten adj) 0 := by
          rw [List.getD_eq_getElem?_getD, List.getD_eq_getElem?_getD,
            List.getElem?_append_right (by omega)]
          have harg : (b :: tail).length + byteOffSpec rest.flatten adj
              - (b :: tail).length = byteOffSpec rest.flatten adj := by omega
          rw [harg]
        refine ⟨?_, ?_, ?_, ?_, ?_, ?_⟩
        · rw [hoffA]
          simp only [List.length_append]
          omega
        · rw [hoffA, hoffB, hget, ih2]
          omega

        · rw [hoffA, hoffB, List.take_append, List.drop_append,
            List.append_assoc]
          exact aligned_append _ _
            (aligned_of_unit (b :: tail) (isCharUnit_cons b tail hb hw htail)) ih3
        · rw [hoffA, hoffB, List.take_append, List.drop_append,
            List.append_assoc, numCharsIn_append, ih4, numCharsIn_append, huC]
          have := units_chars rest hrest
          omega
        · rw [hoffA, hoffB, hget, List.take_append, List.drop_append,
            List.append_assoc, numNewlinesIn_append, ih5, numNewlinesIn_append]
          have hle : (if rest.flatten.getD (byteOffSpec rest.flatten adj) 0 = 10
              then 1 else 0) ≤ numNewlinesIn rest.flatten := by
            split
            · exact ih6 (by assumption)
            · omega
          omega
        · intro hbn
          rw [hoffA, hget] at hbn
          rw [numNewlinesIn_append]
          have := ih6 hbn
          omega

/-- Deleting the `adj`-th character of an aligned byte sequence. -/
theorem aligned_delete (node : List Nat) (adj : Nat)
    (hA : Aligned node) (hadj : adj < numCharsIn node) :
    byteOffSpec node adj < node.length ∧
    byteOffSpec node (adj + 1)
      = byteOffSpec node adj
        + utf8CharWidth (node.getD (byteOffSpec node adj) 0) ∧
    Aligned (node.take (byteOffSpec node adj)
      ++ node.drop (byteOffSpec node (adj + 1))) ∧
    numCharsIn (node.take (byteOffSpec node adj)
      ++ node.drop (byteOffSpec node (adj + 1)))
      = numCharsIn node - 1 ∧
    numNewlinesIn (node.take (byteOffSpec node adj)
      ++ node.drop (byteOffSpec node (adj + 1)))
      = numNewlinesIn node
        - (if node.getD (byteOffSpec node adj) 0 = 10 then 1 else 0) ∧
    (node.getD (byteOffSpec node adj) 0 = 10 → 1 ≤ numNewlinesIn node) := by
  obtain ⟨U, hU, hflat⟩ := hA
  subst hflat
  exact unitsDelete U hU adj (by rw [← units_chars U hU]; exact hadj)

/-! ## Updating one leaf: list-set lemmas and congruences -/

theorem getD_set_self (l : List (List Nat)) (n : Nat) (a : List Nat)
    (h : n < l.length) : (l.set n a).getD n [] = a := by
  rw [List.getD_eq_getElem?_getD, List.getElem?_set_self h]
  rfl

theorem getD_set_ne (l : List (List Nat)) (n m : Nat) (a : List Nat)
    (h : n ≠ m) : (l.set n a).getD m [] = l.getD m [] := by
  rw [List.getD_eq_getElem?_getD, List.getElem?_set_ne h,
    ← List.getD_eq_getElem?_getD]

theorem getD_set_self' (l : List (List (List Nat))) (n : Nat)
    (a : List (List Nat)) (h : n < l.length) : (l.set n a).getD n [] = a := by
  rw [List.getD_eq_getElem?_getD, List.getElem?_set_self h]
  rfl

theorem getD_set_ne' (l : List (List (List Nat))) (n m : Nat)
    (a : List (List Nat)) (h : n ≠ m) : (l.set n a).getD m [] = l.getD m [] := by
  rw [List.getD_eq_getElem?_getD, List.getElem?_set_ne h,
    ← List.getD_eq_getElem?_getD]

theorem set_getD_self (l : List (List Nat)) (n : Nat) :
    l.set n (l.getD n []) = l := by
  by_cases h : n < l.length
  · apply List.ext_getElem?
    intro m
    by_cases hm : n = m
    · subst hm
      rw [List.getElem?_set_self h, List.getD_eq_getElem?_getD,
        List.getElem?_eq_getElem h, Option.getD_some]
    · rw [List.getElem?_set_ne hm]
  · rw [List.set_eq_take_append_cons_drop, if_neg h]

theorem set_getD_self' (l : List (List (List Nat))) (n : Nat) :
    l.set n (l.getD n []) = l := by
  by_cases h : n < l.length
  · apply List.ext_getElem?
    intro m
    by_cases hm : n = m
    · subst hm
      rw [List.getElem?_set_self h, List.getD_eq_getElem?_getD,
        List.getElem?_eq_getElem h, Option.getD_some]
    · rw [List.getElem?_set_ne hm]
  · rw [List.set_eq_take_append_cons_drop, if_neg h]

theorem set_flatten (g : List (List Nat)) (j : Nat) (v : List Nat)
    (h : j < g.length) :
    (g.set j v).flatten
      = (g.take j).flatten ++ v ++ (g.drop (j + 1)).flatten := by
  rw [List.set_eq_take_append_cons_drop, if_pos h]
  simp

/-- `spanBytes` depends only on the groups inside the span. -/
theorem spanBytes_congr (groups groups' : LeafGroups) (lo hi : Nat)
    (hlen : groups'.length = groups.length)
    (h : ∀ i, lo ≤ i → i < hi → groups'.getD i [] = groups.getD i []) :
    spanBytes groups' lo hi = spanBytes groups lo hi := by
  unfold spanBytes
  congr 1
  congr 1
  apply List.ext_getElem?
  intro n
  by_cases hn : n < hi - lo
  · rw [List.getElem?_take, List.getElem?_take, if_pos hn, if_pos hn,
      List.getElem?_drop, List.getElem?_drop]
    by_cases hb : lo + n < groups.length
    · rw [List.getElem?_eq_getElem hb, List.getElem?_eq_getElem (by omega)]
      have := h (lo + n) (by omega) (by omega)
      rw [List.getD_eq_getElem?_getD, List.getD_eq_getElem?_getD,
        List.getElem?_eq_getElem hb, List.getElem?_eq_getElem (by omega)] at this
      simp only [Option.getD_some] at this
      rw [this]
    · rw [List.getElem?_eq_none (by omega), List.getElem?_eq_none (by omega)]
  · rw [List.getElem?_take, List.getElem?_take, if_neg hn, if_neg hn]

/-! Well-formedness only looks at the groups inside the node's span. -/
mutual
theorem nodeWF_congr (groups groups' : LeafGroups)
    (hlen : groups'.length = groups.length) :
    ∀ (n : InnerNode) (lo hi : Nat), NodeWF groups n lo hi →
      (∀ i, lo ≤ i → i < hi → groups'.getD i [] = groups.getD i []) →
      NodeWF groups' n lo hi
  | .leafParent keys gIdx, lo, hi, h, hc => by
    rw [NodeWF] at h ⊢
    obtain ⟨hlo, hhi, hg, hkeys, hne⟩ := h
    refine ⟨hlo, hhi, by omega, ?_, hne⟩
    rw [hc gIdx (by omega) (by omega)]
    exact hkeys
  | .innerParent keys children, lo, hi, h, hc => by
    rw [NodeWF] at h ⊢
    exact ⟨h.1, childrenWF_congr groups groups' hlen children keys lo hi h.2 hc⟩

theorem childrenWF_congr (groups groups' : LeafGroups)
    (hlen : groups'.length = groups.length) :
    ∀ (ns : List InnerNode) (ks : List IndexKey) (lo hi : Nat),
      ChildrenWF groups ns ks lo hi →
      (∀ i, lo ≤ i → i < hi → groups'.getD i [] = groups.getD i []) →
      ChildrenWF groups' ns ks lo hi
  | [], ks, lo, hi, h, hc => by
    rw [ChildrenWF] at h ⊢
    exact h
  | child :: rest, ks, lo, hi, h, hc => by
    rw [ChildrenWF] at h ⊢
    obtain ⟨mid, hn, ks', hks, hrest⟩ := h
    have hb1 := nodeWF_bounds groups child lo mid hn
    have hb2 := childrenWF_bounds groups rest ks' mid hi hrest
    refine ⟨mid, nodeWF_congr groups groups' hlen child lo mid hn
      (fun i h1 h2 => hc i h1 (by omega)), ks', ?_, childrenWF_congr groups groups'
        hlen rest ks' mid hi hrest (fun i h1 h2 => hc i (by omega) h2)⟩
    rw [hks, spanBytes_congr groups groups' lo mid hlen
      (fun i h1 h2 => hc i h1 (by omega))]
end

/-- Removing one character in the middle of an aligned stream, seen from the
surrounding context. -/
theorem byteOffSpec_mid (A s B : List Nat) (adj : Nat)
    (hB : Aligned B) (hadj : adj < numCharsIn s) :
    byteOffSpec (A ++ s ++ B) (numCharsIn A + adj) = A.length + byteOffSpec s adj ∧
    byteOffSpec (A ++ s ++ B) (numCharsIn A + adj + 1)
      = A.length + byteOffSpec s (adj + 1) := by
  rw [List.append_assoc]
  constructor
  · rw [byteOffSpec_append, if_neg (by omega)]
    have h1 : numCharsIn A + adj - numCharsIn A = adj := by omega
    rw [h1, byteOffSpec_append, if_pos hadj]
  · rw [byteOffSpec_append, if_neg (by omega)]
    have h1 : numCharsIn A + adj + 1 - numCharsIn A = adj + 1 := by omega
    rw [h1, byteOffSpec_append]
    by_cases h2 : adj + 1 < numCharsIn s
    · rw [if_pos h2]
    · rw [if_neg h2]
      have h3 : adj + 1 - numCharsIn s = 0 := by omega
      rw [h3, byteOffSpec_zero_aligned B hB, byteOffSpec_ge s (adj + 1) (by omega)]
      omega

theorem delSpec_middle (A s B : List Nat) (adj : Nat)
    (hB : Aligned B) (hadj : adj < numCharsIn s) :
    (A ++ s ++ B).take (byteOffSpec (A ++ s ++ B) (numCharsIn A + adj))
        ++ (A ++ s ++ B).drop (byteOffSpec (A ++ s ++ B) (numCharsIn A + adj + 1))
      = A ++ (s.take (byteOffSpec s adj) ++ s.drop (byteOffSpec s (adj + 1))) ++ B := by
  obtain ⟨h1, h2⟩ := byteOffSpec_mid A s B adj hB hadj
  rw [h1, h2, List.append_assoc, List.take_append, List.drop_append,
    List.take_append_of_le_length (byteOffSpec_le_length s adj),
    List.drop_append_of_le_length (byteOffSpec_le_length s (adj + 1))]
  simp [List.append_assoc]

/-! ## Deletion support -/

/-- How a delete changes the leaf chain: same group count, groups outside the
span untouched, group sizes unchanged, leaf sizes never grow, all leaves still
aligned. -/
def DeltaOK (groups groups' : LeafGroups) (lo hi : Nat) : Prop :=
  groups'.length = groups.length ∧
  (∀ i, i < lo ∨ hi ≤ i → groups'.getD i [] = groups.getD i []) ∧
  (∀ i, (groups'.getD i []).length = (groups.getD i []).length) ∧
  (∀ i j, ((groups'.getD i []).getD j []).length
    ≤ ((groups.getD i []).getD j []).length) ∧
  GroupsAligned groups'

theorem decrementKey_cons_zero (k : IndexKey) (ks : List IndexKey) (w : Bool) :
    decrementKey (k :: ks) 0 w
      = ⟨k.numChars - 1, k.numNewlines - if w then 1 else 0⟩ :: ks := by
  simp [decrementKey]

theorem decrementKey_cons_succ (k : IndexKey) (ks : List IndexKey) (j : Nat)
    (w : Bool) :
    decrementKey (k :: ks) (j + 1) w = k :: decrementKey ks j w := by
  simp [decrementKey]

theorem decrementKey_length (ks : List IndexKey) (j : Nat) (w : Bool) :
    (decrementKey ks j w).length = ks.length := by
  simp [decrementKey]

theorem getD_mem (groups : LeafGroups) (i : Nat) (h : i < groups.length) :
    groups.getD i [] ∈ groups := by
  rw [List.getD_eq_getElem?_getD, List.getElem?_eq_getElem h, Option.getD_some]
  exact List.getElem_mem _

theorem getD_mem_group (g : List (List Nat)) (j : Nat) (h : j < g.length) :
    g.getD j [] ∈ g := by
  rw [List.getD_eq_getElem?_getD, List.getElem?_eq_getElem h, Option.getD_some]
  exact List.getElem_mem _

theorem flatten_getD_decomp (g : List (List Nat)) (j : Nat) (h : j < g.length) :
    g.flatten
      = (g.take j).flatten ++ g.getD j [] ++ (g.drop (j + 1)).flatten := by
  conv_lhs => rw [← set_getD_self g j]
  exact set_flatten g j (g.getD j []) h

theorem aligned_spanBytes (groups : LeafGroups) (hA : GroupsAligned groups)
    (lo hi : Nat) : Aligned (spanBytes groups lo hi) := by
  unfold spanBytes
  apply aligned_flatten
  intro x hx
  simp only [List.mem_map] at hx
  obtain ⟨g, hg, hgx⟩ := hx
  have hgmem : g ∈ groups :=
    List.mem_of_mem_drop (List.mem_of_mem_take hg)
  rw [← hgx]
  exact aligned_flatten g (fun nd hnd => hA g hgmem nd hnd)

/-- Shifting a one-character deletion past an aligned-independent prefix. -/
theorem delSpec_shift (A t : List Nat) (q : Nat) :
    (A ++ t).take (byteOffSpec (A ++ t) (numCharsIn A + q))
        ++ (A ++ t).drop (byteOffSpec (A ++ t) (numCharsIn A + q + 1))
      = A ++ (t.take (byteOffSpec t q) ++ t.drop (byteOffSpec t (q + 1))) := by
  have h1 : byteOffSpec (A ++ t) (numCharsIn A + q) = A.length + byteOffSpec t q := by
    have harg : numCharsIn A + q - numCharsIn A = q := by omega
    rw [byteOffSpec_append, if_neg (by omega), harg]
  have h2 : byteOffSpec (A ++ t) (numCharsIn A + q + 1)
      = A.length + byteOffSpec t (q + 1) := by
    have harg : numCharsIn A + q + 1 - numCharsIn A = q + 1 := by omega
    rw [byteOffSpec_append, if_neg (by omega), harg]
  rw [h1, h2, List.take_append, List.drop_append]
  simp [List.append_assoc]

/-- Truncating a one-character deletion at an aligned right context. -/
theorem delSpec_right (t B : List Nat) (q : Nat)
    (hB : Aligned B) (hq : q < numCharsIn t) :
    (t ++ B).take (byteOffSpec (t ++ B) q)
        ++ (t ++ B).drop (byteOffSpec (t ++ B) (q + 1))
      = (t.take (byteOffSpec t q) ++ t.drop (byteOffSpec t (q + 1))) ++ B := by
  have := delSpec_middle [] t B q hB hq
  simp only [List.nil_append, numCharsIn_nil, Nat.zero_add] at this
  rw [this]

/-- Deleting within a leaf parent (`leafNodeGroup.deleteAtPosition` together
with its parent's key update): an in-range position removes exactly one
character unit from the located leaf; an out-of-range position changes
nothing. -/
theorem deleteLeafParent_spec (groups : LeafGroups) (hA : GroupsAligned groups)
    (gIdx : Nat) (hg : gIdx < groups.length)
    (hgne : groups.getD gIdx [] ≠ []) (p : Nat) :
    (p < numCharsIn (spanBytes groups gIdx (gIdx + 1)) →
      (deleteAtPosNode groups
          (.leafParent ((groups.getD gIdx []).map leafNodeKey) gIdx) p).2.2.1 = true ∧
      DeltaOK groups
        (deleteAtPosNode groups (.leafParent ((groups.getD gIdx []).map leafNodeKey) gIdx) p).2.1 gIdx (gIdx + 1) ∧
      NodeWF (deleteAtPosNode groups (.leafParent ((groups.getD gIdx []).map leafNodeKey) gIdx) p).2.1
        (deleteAtPosNode groups (.leafParent ((groups.getD gIdx []).map leafNodeKey) gIdx) p).1 gIdx (gIdx + 1) ∧
      spanBytes (deleteAtPosNode groups (.leafParent ((groups.getD gIdx []).map leafNodeKey) gIdx) p).2.1 gIdx (gIdx + 1)
        = (spanBytes groups gIdx (gIdx + 1)).take
            (byteOffSpec (spanBytes groups gIdx (gIdx + 1)) p)
          ++ (spanBytes groups gIdx (gIdx + 1)).drop
            (byteOffSpec (spanBytes groups gIdx (gIdx + 1)) (p + 1)) ∧
      numCharsIn
          (spanBytes (deleteAtPosNode groups (.leafParent ((groups.getD gIdx []).map leafNodeKey) gIdx) p).2.1 gIdx
            (gIdx + 1))
        = numCharsIn (spanBytes groups gIdx (gIdx + 1)) - 1 ∧
      numNewlinesIn
          (spanBytes (deleteAtPosNode groups (.leafParent ((groups.getD gIdx []).map leafNodeKey) gIdx) p).2.1 gIdx
            (gIdx + 1))
        = numNewlinesIn (spanBytes groups gIdx (gIdx + 1))
          - (if (deleteAtPosNode groups (.leafParent ((groups.getD gIdx []).map leafNodeKey) gIdx) p).2.2.2
              then 1 else 0) ∧
      ((deleteAtPosNode groups (.leafParent ((groups.getD gIdx []).map leafNodeKey) gIdx) p).2.2.2 = true →
        1 ≤ numNewlinesIn (spanBytes groups gIdx (gIdx + 1)))) ∧
    (numCharsIn (spanBytes groups gIdx (gIdx + 1)) ≤ p →
      deleteAtPosNode groups (.leafParent ((groups.getD gIdx []).map leafNodeKey) gIdx) p
        = (.leafParent ((groups.getD gIdx []).map leafNodeKey) gIdx, groups, false, false)) := by
  have hspan : spanBytes groups gIdx (gIdx + 1) = (groups.getD gIdx []).flatten :=
    spanBytes_single groups gIdx hg
  constructor
  · intro hp
    rw [hspan, ← sumChars_map_leafNodeKey] at hp
    obtain ⟨j, hj, heq, hle, hlt⟩ :=
      locatePositionLoop_found ((groups.getD gIdx []).map leafNodeKey) p 0 0 (Nat.zero_le _) (by simpa using hp)
    simp only [Nat.zero_add, Nat.sub_zero] at heq hle hlt
    have hjg : j < (groups.getD gIdx []).length := by simpa using hj
    have hadj : (p - sumChars (((groups.getD gIdx []).map leafNodeKey).take j)) < numCharsIn ((groups.getD gIdx []).getD j []) := by
      have hs := sumChars_take_succ ((groups.getD gIdx []).map leafNodeKey) j hj
      rw [getD_map_leafNodeKey _ j hjg, leafNodeKey_eq] at hs
      have hkc : (keyOfBytes ((groups.getD gIdx []).getD j [])).numChars = numCharsIn ((groups.getD gIdx []).getD j []) := rfl
      rw [hkc] at hs
      omega
    have hAnode : Aligned ((groups.getD gIdx []).getD j []) :=
      hA (groups.getD gIdx []) (getD_mem groups gIdx hg) ((groups.getD gIdx []).getD j []) (getD_mem_group (groups.getD gIdx []) j hjg)
    obtain ⟨ad1, ad2, ad3, ad4, ad5, ad6⟩ := aligned_delete ((groups.getD gIdx []).getD j []) (p - sumChars (((groups.getD gIdx []).map leafNodeKey).take j)) hAnode hadj
    have hres : deleteAtPosNode groups (.leafParent ((groups.getD gIdx []).map leafNodeKey) gIdx) p
        = (.leafParent (decrementKey ((groups.getD gIdx []).map leafNodeKey) j (decide (((groups.getD gIdx []).getD j []).getD (byteOffSpec ((groups.getD gIdx []).getD j []) (p - sumChars (((groups.getD gIdx []).map leafNodeKey).take j))) 0 = 10))) gIdx,
           groups.set gIdx ((groups.getD gIdx []).set j (((groups.getD gIdx []).getD j []).take (byteOffSpec ((groups.getD gIdx []).getD j []) (p - sumChars (((groups.getD gIdx []).map leafNodeKey).take j))) ++ ((groups.getD gIdx []).getD j []).drop (byteOffSpec ((groups.getD gIdx []).getD j []) ((p - sumChars (((groups.getD gIdx []).map leafNodeKey).take j)) + 1)))), true, (decide (((groups.getD gIdx []).getD j []).getD (byteOffSpec ((groups.getD gIdx []).getD j []) (p - sumChars (((groups.getD gIdx []).map leafNodeKey).take j))) 0 = 10))) := by
      simp only [deleteAtPosNode, locatePosition]
      rw [heq]
      dsimp only
      rw [leafDeleteAtPosition]
      dsimp only
      rw [byteOffsetForPosition_spec, if_pos ad1, ← ad2]
      dsimp only
      rw [if_pos rfl]
    rw [hres]
    dsimp only
    have hglen : (groups.set gIdx ((groups.getD gIdx []).set j (((groups.getD gIdx []).getD j []).take (byteOffSpec ((groups.getD gIdx []).getD j []) (p - sumChars (((groups.getD gIdx []).map leafNodeKey).take j))) ++ ((groups.getD gIdx []).getD j []).drop (byteOffSpec ((groups.getD gIdx []).getD j []) ((p - sumChars (((groups.getD gIdx []).map leafNodeKey).take j)) + 1))))).length = groups.length := by
      rw [List.length_set]
    have hgetG : (groups.set gIdx ((groups.getD gIdx []).set j (((groups.getD gIdx []).getD j []).take (byteOffSpec ((groups.getD gIdx []).getD j []) (p - sumChars (((groups.getD gIdx []).map leafNodeKey).take j))) ++ ((groups.getD gIdx []).getD j []).drop (byteOffSpec ((groups.getD gIdx []).getD j []) ((p - sumChars (((groups.getD gIdx []).map leafNodeKey).take j)) + 1))))).getD gIdx []
        = (groups.getD gIdx []).set j (((groups.getD gIdx []).getD j []).take (byteOffSpec ((groups.getD gIdx []).getD j []) (p - sumChars (((groups.getD gIdx []).map leafNodeKey).take j))) ++ ((groups.getD gIdx []).getD j []).drop (byteOffSpec ((groups.getD gIdx []).getD j []) ((p - sumChars (((groups.getD gIdx []).map leafNodeKey).take j)) + 1))) := getD_set_self' groups gIdx _ hg
    have hspan' : spanBytes (groups.set gIdx ((groups.getD gIdx []).set j (((groups.getD gIdx []).getD j []).take (byteOffSpec ((groups.getD gIdx []).getD j []) (p - sumChars (((groups.getD gIdx []).map leafNodeKey).take j))) ++ ((groups.getD gIdx []).getD j []).drop (byteOffSpec ((groups.getD gIdx []).getD j []) ((p - sumChars (((groups.getD gIdx []).map leafNodeKey).take j)) + 1))))) gIdx (gIdx + 1)
        = ((groups.getD gIdx []).set j (((groups.getD gIdx []).getD j []).take (byteOffSpec ((groups.getD gIdx []).getD j []) (p - sumChars (((groups.getD gIdx []).map leafNodeKey).take j))) ++ ((groups.getD gIdx []).getD j []).drop (byteOffSpec ((groups.getD gIdx []).getD j []) ((p - sumChars (((groups.getD gIdx []).map leafNodeKey).take j)) + 1)))).flatten := by
      rw [spanBytes_single _ gIdx (by rw [hglen]; exact hg), hgetG]
    have hRal : Aligned (((groups.getD gIdx []).drop (j + 1)).flatten) :=
      aligned_flatten _ (fun nd hnd =>
        hA (groups.getD gIdx []) (getD_mem groups gIdx hg) nd (List.mem_of_mem_drop hnd))
    have hdecomp : (groups.getD gIdx []).flatten
        = ((groups.getD gIdx []).take j).flatten ++ ((groups.getD gIdx []).getD j []) ++ ((groups.getD gIdx []).drop (j + 1)).flatten :=
      flatten_getD_decomp (groups.getD gIdx []) j hjg
    have hsetflat : ((groups.getD gIdx []).set j (((groups.getD gIdx []).getD j []).take (byteOffSpec ((groups.getD gIdx []).getD j []) (p - sumChars (((groups.getD gIdx []).map leafNodeKey).take j))) ++ ((groups.getD gIdx []).getD j []).drop (byteOffSpec ((groups.getD gIdx []).getD j []) ((p - sumChars (((groups.getD gIdx []).map leafNodeKey).take j)) + 1)))).flatten
        = ((groups.getD gIdx []).take j).flatten ++ (((groups.getD gIdx []).getD j []).take (byteOffSpec ((groups.getD gIdx []).getD j []) (p - sumChars (((groups.getD gIdx []).map leafNodeKey).take j))) ++ ((groups.getD gIdx []).getD j []).drop (byteOffSpec ((groups.getD gIdx []).getD j []) ((p - sumChars (((groups.getD gIdx []).map leafNodeKey).take j)) + 1))) ++ ((groups.getD gIdx []).drop (j + 1)).flatten :=
      set_flatten (groups.getD gIdx []) j (((groups.getD gIdx []).getD j []).take (byteOffSpec ((groups.getD gIdx []).getD j []) (p - sumChars (((groups.getD gIdx []).map leafNodeKey).take j))) ++ ((groups.getD gIdx []).getD j []).drop (byteOffSpec ((groups.getD gIdx []).getD j []) ((p - sumChars (((groups.getD gIdx []).map leafNodeKey).take j)) + 1))) hjg
    have hPj : p = numCharsIn ((groups.getD gIdx []).take j).flatten + (p - sumChars (((groups.getD gIdx []).map leafNodeKey).take j)) := by
      rw [← sumChars_map_take]
      omega
    have hnodechars : 1 ≤ numCharsIn ((groups.getD gIdx []).getD j []) := by omega
    refine ⟨rfl, ?_, ?_, ?_, ?_, ?_, ?_⟩
    · refine ⟨hglen, ?_, ?_, ?_, ?_⟩
      · intro i hi
        rw [getD_set_ne' groups gIdx i _ (by omega)]
      · intro i
        by_cases hig : gIdx = i
        · subst hig
          rw [hgetG, List.length_set]
        · rw [getD_set_ne' groups gIdx i _ hig]
      · intro i j2
        by_cases hig : gIdx = i
        · subst hig
          rw [hgetG]
          by_cases hij : j = j2
          · subst hij
            rw [getD_set_self (groups.getD gIdx []) j _ hjg]
            simp only [List.length_append, List.length_take, List.length_drop]
            have := byteOffSpec_le_length ((groups.getD gIdx []).getD j []) (p - sumChars (((groups.getD gIdx []).map leafNodeKey).take j))
            omega
          · rw [getD_set_ne (groups.getD gIdx []) j j2 _ hij]
        · rw [getD_set_ne' groups gIdx i _ hig]
      · intro g2 hg2 nd hnd
        rcases List.mem_or_eq_of_mem_set hg2 with hg2' | hg2'
        · exact hA g2 hg2' nd hnd
        · subst hg2'
          rcases List.mem_or_eq_of_mem_set hnd with hnd' | hnd'
          · exact hA (groups.getD gIdx []) (getD_mem groups gIdx hg) nd hnd'
          · subst hnd'
            exact ad3
    · rw [NodeWF]
      refine ⟨rfl, rfl, by omega, ?_, ?_⟩
      · rw [hgetG, List.map_set, decrementKey]
        rw [getD_map_leafNodeKey _ j hjg, leafNodeKey_eq]
        congr 1
        rw [leafNodeKey_eq]
        unfold keyOfBytes
        rw [IndexKey.mk.injEq]
        constructor
        · rw [ad4]
        · rw [ad5]
          by_cases hNL : ((groups.getD gIdx []).getD j []).getD (byteOffSpec ((groups.getD gIdx []).getD j []) (p - sumChars (((groups.getD gIdx []).map leafNodeKey).take j))) 0 = 10
          · rw [if_pos hNL, decide_eq_true hNL, if_pos rfl]
          · rw [if_neg hNL, decide_eq_false hNL, if_neg (by simp)]
      · rw [decrementKey]
        intro hnil
        have := List.length_set ((groups.getD gIdx []).map leafNodeKey) j
          ⟨(((groups.getD gIdx []).map leafNodeKey).getD j ⟨0, 0⟩).numChars - 1,
           (((groups.getD gIdx []).map leafNodeKey).getD j ⟨0, 0⟩).numNewlines - if (decide (((groups.getD gIdx []).getD j []).getD (byteOffSpec ((groups.getD gIdx []).getD j []) (p - sumChars (((groups.getD gIdx []).map leafNodeKey).take j))) 0 = 10)) then 1 else 0⟩
        rw [hnil] at this
        simp only [List.length_nil, List.length_map] at this
        omega
    · rw [hspan', hspan, hsetflat]
      conv_rhs => rw [hdecomp, hPj]
      rw [delSpec_middle _ _ _ _ hRal hadj]
    · rw [hspan', hspan, hsetflat, hdecomp]
      simp only [numCharsIn_append] at ad4 ⊢
      omega
    · rw [hspan', hspan, hsetflat, hdecomp]
      simp only [numNewlinesIn_append] at ad5 ⊢
      by_cases hNL : ((groups.getD gIdx []).getD j []).getD (byteOffSpec ((groups.getD gIdx []).getD j []) (p - sumChars (((groups.getD gIdx []).map leafNodeKey).take j))) 0 = 10
      · rw [decide_eq_true hNL, if_pos rfl]
        rw [if_pos hNL] at ad5
        have := ad6 hNL
        omega
      · rw [decide_eq_false hNL, if_neg (by simp)]
        rw [if_neg hNL] at ad5
        omega
    · intro hwn
      rw [hspan, hdecomp]
      simp only [numNewlinesIn_append]
      have hNL : ((groups.getD gIdx []).getD j []).getD (byteOffSpec ((groups.getD gIdx []).getD j []) (p - sumChars (((groups.getD gIdx []).map leafNodeKey).take j))) 0 = 10 := of_decide_eq_true hwn
      have := ad6 hNL
      omega
  · intro hp
    rw [hspan, ← sumChars_map_leafNodeKey] at hp
    have hne : ((groups.getD gIdx []).map leafNodeKey) ≠ [] := by
      intro h0
      apply hgne
      have := congrArg List.length h0
      simp only [List.length_map, List.length_nil] at this
      exact List.length_eq_zero.mp this
    have hgpos : 0 < (groups.getD gIdx []).length := List.length_pos.mpr hgne
    have hlast : (groups.getD gIdx []).length - 1 < (groups.getD gIdx []).length := by omega
    have hclamp := locatePositionLoop_clamp ((groups.getD gIdx []).map leafNodeKey) p 0 0 hne (Nat.zero_le _)
      (by omega)
    simp only [Nat.zero_add, List.length_map] at hclamp
    have hadj2 : numCharsIn ((groups.getD gIdx []).getD ((groups.getD gIdx []).length - 1) [])
        ≤ sumChars ((groups.getD gIdx []).map leafNodeKey) := by
      have hs := sumChars_take_succ ((groups.getD gIdx []).map leafNodeKey) ((groups.getD gIdx []).length - 1) (by simpa using hlast)
      rw [getD_map_leafNodeKey _ _ hlast, leafNodeKey_eq] at hs
      have hkc : (keyOfBytes ((groups.getD gIdx []).getD ((groups.getD gIdx []).length - 1) [])).numChars
          = numCharsIn ((groups.getD gIdx []).getD ((groups.getD gIdx []).length - 1) []) := rfl
      rw [hkc] at hs
      have hfull : ((groups.getD gIdx []).map leafNodeKey).take ((groups.getD gIdx []).length - 1 + 1) = (groups.getD gIdx []).map leafNodeKey := by
        apply List.take_of_length_le
        simp
        omega
      rw [hfull] at hs
      omega
    have hoffge : byteOffSpec ((groups.getD gIdx []).getD ((groups.getD gIdx []).length - 1) []) (sumChars ((groups.getD gIdx []).map leafNodeKey))
        = ((groups.getD gIdx []).getD ((groups.getD gIdx []).length - 1) []).length :=
      byteOffSpec_ge _ _ (by omega)
    have hld : leafDeleteAtPosition
        ((groups.getD gIdx []).getD ((groups.getD gIdx []).length - 1) [])
        (sumChars ((groups.getD gIdx []).map leafNodeKey))
        = ((groups.getD gIdx []).getD ((groups.getD gIdx []).length - 1) [],
           false, false) := by
      rw [leafDeleteAtPosition]
      dsimp only
      rw [byteOffsetForPosition_spec, hoffge, if_neg (by omega)]
    simp only [deleteAtPosNode, locatePosition]
    rw [hclamp]
    dsimp only
    rw [hld]
    dsimp only
    rw [if_neg (by simp), set_getD_self, set_getD_self']

end Aretext
